import Mathlib

/-!
A verification development for the static triangle-mesh collision shape
(`MeshShape.cpp`).  The pure algorithms of the source file are embedded
shallowly:

* the triangle sanitizer (`MeshShapeSettings::Sanitize`),
* the constructor's validation pipeline (`MeshShape::MeshShape`),
* the active-edge analyzer (`MeshShape::FindActiveEdges`),
* the sub-shape id codec (`SubShapeIDCreator::PushID` / `SubShapeID::PopID`,
  `MeshShape::DecodeSubShapeID`),
* the query visitors (`CastRay` nearest and collector overloads,
  `CollidePoint`, `GetTrianglesNext`) over the encoded-tree walker,
* `MeshShape::GetMaterial`.

Machine floats are modelled by `ℚ`; external primitives (the ray/triangle
solver, the ray/AABB solver, `ActiveEdges::IsEdgeActive`, plane normals)
are abstract function parameters, since their implementations live outside
the mesh-shape translation unit.  Components whose sources are not part of
this repository snapshot (the node codec's tree walker, the sub-shape id
container, the triangle codec) are modelled from the specification; each
such definition says so in its doc comment.
-/

namespace MeshShapeProof

/-! ### Sub-shape identifiers -/

/-- Modelled from the spec: a `SubShapeID` is a bit field built by pushing
`(value, width)` pairs onto a most-significant-end cursor; we keep the raw
value together with the number of bits that are in use.  `Pop` returns the
low `width` bits and shifts the remainder down. -/
structure SubShapeID where
  value : Nat
  width : Nat
deriving DecidableEq

/-- Modelled from the spec: the empty remainder after all pushed fields have
been popped: no used bits and no residual value. -/
def SubShapeID.isEmpty (id : SubShapeID) : Bool :=
  id.width == 0 && id.value == 0

/-- Modelled from the spec: `Pop(width)` returns the low `width` bits and the
remainder (the value shifted down by `width`). -/
def SubShapeID.popID (id : SubShapeID) (w : Nat) : Nat × SubShapeID :=
  (id.value &&& (1 <<< w - 1), ⟨id.value >>> w, id.width - w⟩)

/-- Modelled from the spec: a `SubShapeIDCreator` accumulates pushed fields;
`PushID(value, width)` appends `value` at the current high-end cursor.  -/
structure SubShapeIDCreator where
  value : Nat
  bits : Nat
deriving DecidableEq

/-- Modelled from the spec: push a `(value, width)` pair at the high end. -/
def SubShapeIDCreator.pushID (c : SubShapeIDCreator) (v w : Nat) : SubShapeIDCreator :=
  ⟨c.value ||| (v <<< c.bits), c.bits + w⟩

/-- Modelled from the spec: freeze the creator into a `SubShapeID`. -/
def SubShapeIDCreator.getID (c : SubShapeIDCreator) : SubShapeID :=
  ⟨c.value, c.bits⟩

/-- The empty creator (no bits pushed). -/
def SubShapeIDCreator.empty : SubShapeIDCreator := ⟨0, 0⟩

/-- `MeshShape::DecodeSubShapeID`: pop the triangle-block id (using the
tree's `blockIdBits`), then pop the triangle index (using `NumTriangleBits`);
the source asserts that the remainder is then empty, which we return as the
third component. -/
def decodeSubShapeID (blockIdBits numTriangleBits : Nat) (id : SubShapeID) :
    Nat × Nat × Bool :=
  let p1 := id.popID blockIdBits
  let p2 := p1.2.popID numTriangleBits
  (p1.1, p2.1, p2.2.isEmpty)

/-! ### Indexed triangles and the sanitizer -/

/-- An `IndexedTriangle`: three vertex indices plus the flag word (the source
stores the flag word in the field named `mMaterialIndex`; its low bits hold
the material index, and `FindActiveEdges` later ORs the active-edge bits into
it). -/
structure IndexedTriangle where
  idx0 : Nat
  idx1 : Nat
  idx2 : Nat
  mMaterialIndex : Nat
deriving DecidableEq, Inhabited

/-- Subscript access `mIdx[k]` with the `(k + 1) % 3` wrap-around used
throughout the source. -/
def IndexedTriangle.mIdx (t : IndexedTriangle) (k : Nat) : Nat :=
  match k % 3 with
  | 0 => t.idx0
  | 1 => t.idx1
  | _ => t.idx2

/-- Modelled from the spec: a triangle is degenerate when two or more of its
vertex indices coincide (`IndexedTriangle::IsDegenerate`, declared outside
this translation unit). -/
def IndexedTriangle.isDegenerate (t : IndexedTriangle) : Bool :=
  t.idx0 == t.idx1 || t.idx1 == t.idx2 || t.idx0 == t.idx2

/-- Modelled from the spec: rotate the triangle so that its smallest vertex
index comes first while keeping the winding
(`IndexedTriangle::GetLowestIndexFirst`, declared outside this translation
unit). -/
def IndexedTriangle.getLowestIndexFirst (t : IndexedTriangle) : IndexedTriangle :=
  if t.idx1 < t.idx0 then
    if t.idx2 < t.idx1 then ⟨t.idx2, t.idx0, t.idx1, t.mMaterialIndex⟩
    else ⟨t.idx1, t.idx2, t.idx0, t.mMaterialIndex⟩
  else
    if t.idx2 < t.idx0 then ⟨t.idx2, t.idx0, t.idx1, t.mMaterialIndex⟩
    else t

/-- The canonical (lowest-index-first) vertex-index triple of a triangle,
used by `Sanitize` as the duplicate-detection key.  Modelled from the spec:
duplicates are detected under the canonicalization "rotate so the smallest
vertex index is first, keep winding". -/
def canonKey (t : IndexedTriangle) : Nat × Nat × Nat :=
  ((t.getLowestIndexFirst).idx0, (t.getLowestIndexFirst).idx1, (t.getLowestIndexFirst).idx2)

/-- Core loop of `MeshShapeSettings::Sanitize`, which iterates `t` from the
*last* triangle down to the first, erasing a triangle when it is degenerate
or when inserting its canonical form into the seen-set fails (duplicate).
Processing the reversed list front-to-back with an explicit seen-set is the
functional rendering of that backward in-place loop: erasing index `t`
never moves the indices below `t`.  -/
def sanitizeAux : List IndexedTriangle → List (Nat × Nat × Nat) → List IndexedTriangle
  | [], _ => []
  | t :: rest, seen =>
    if t.isDegenerate then sanitizeAux rest seen
    else if canonKey t ∈ seen then sanitizeAux rest seen
    else t :: sanitizeAux rest (canonKey t :: seen)

/-- `MeshShapeSettings::Sanitize`: remove degenerate and duplicate triangles.
The source walks the vector from the back to the front, so the survivor of a
group of duplicates is the occurrence encountered first in that backward
walk; reversing, running the loop, and reversing back keeps the survivors in
their original relative order exactly like the in-place `erase` does. -/
def sanitize (l : List IndexedTriangle) : List IndexedTriangle :=
  (sanitizeAux l.reverse []).reverse

/-! ### Flag-word constants and the constructor's validation pipeline -/

/-- Modelled from the spec: the low 5 bits of the flag word hold the material
index (`FLAGS_MATERIAL_MASK = 0b11111` in the shape's header). -/
def FLAGS_MATERIAL_MASK : Nat := 31

/-- Modelled from the spec: `ActiveEdgeMask = 0b111`, the three per-edge
bits. -/
def FLAGS_ACTIVE_EDGE_MASK : Nat := 7

/-- Modelled from the spec: the active-edge bits start right above the
material bits (the source header spells the constant with the `EGDE` typo;
the value is `5`). -/
def FLAGS_ACTIVE_EGDE_SHIFT : Nat := 5

/-- Construction-time error taxonomy of `MeshShape::MeshShape` (its
`outResult.SetError` calls, in source order). -/
inductive MeshError where
  | emptyTriangles : MeshError
  | degenerateTriangle (i : Nat) : MeshError
  | vertexIndexOutOfRange (i : Nat) : MeshError
  | tooManyMaterials : MeshError
  | materialOutOfRange (i : Nat) : MeshError
  | materialNonZero : MeshError
deriving DecidableEq

/-- The degenerate / out-of-range triangle checks of the constructor.  The
source iterates `t` from the last triangle down to `0` and reports the first
failure it meets, hence the reversed enumeration here. -/
def firstTriangleError (numVertices : Nat) (tris : List IndexedTriangle) : Option MeshError :=
  (tris.enum.reverse).findSome? fun it =>
    if (it.2).isDegenerate then some (.degenerateTriangle it.1)
    else if numVertices ≤ (it.2).idx0 ∨ numVertices ≤ (it.2).idx1 ∨ numVertices ≤ (it.2).idx2 then
      some (.vertexIndexOutOfRange it.1)
    else none

/-- The material checks of the constructor: with a non-empty material list,
first the size check `mMaterials.size() > FLAGS_MATERIAL_MASK` (note: the
check is against the mask itself, not `mask + 1`, and the error string it
prints even uses `FLAGS_ACTIVE_EDGE_MASK + 1`), then the per-triangle
material-index check; with an empty list every triangle must use material
index `0`. -/
def materialError (numMaterials : Nat) (tris : List IndexedTriangle) : Option MeshError :=
  if numMaterials ≠ 0 then
    if FLAGS_MATERIAL_MASK < numMaterials then some .tooManyMaterials
    else
      (tris.enum).findSome? fun it =>
        if numMaterials ≤ (it.2).mMaterialIndex then some (.materialOutOfRange it.1) else none
  else
    tris.findSome? fun t =>
      if t.mMaterialIndex ≠ 0 then some .materialNonZero else none

/-- The validation prefix of `MeshShape::MeshShape` (everything before the
active-edge pass and the tree build): empty-list check, then per-triangle
degeneracy and vertex-index checks, then the material checks.  `none` means
validation passed and construction proceeds. -/
def meshShapeValidate (numVertices numMaterials : Nat) (tris : List IndexedTriangle) :
    Option MeshError :=
  if tris.isEmpty then some .emptyTriangles
  else
    match firstTriangleError numVertices tris with
    | some e => some e
    | none => materialError numMaterials tris

/-! ### C5: sub-shape id roundtrip -/

/-- Low bits of an OR with a disjoint high part: taking the value modulo
`2 ^ B` recovers the low field when it fits in `B` bits. -/
theorem lor_shiftLeft_mod (b t B : Nat) (hb : b < 2 ^ B) :
    (b ||| (t <<< B)) % 2 ^ B = b := by
  apply Nat.eq_of_testBit_eq
  intro i
  rcases lt_or_le i B with h | h
  · simp [Nat.testBit_mod_two_pow, Nat.testBit_or, Nat.testBit_shiftLeft, h, Nat.not_le.mpr h]
  · have hb2 : b < 2 ^ i := lt_of_lt_of_le hb (Nat.pow_le_pow_right (by norm_num) h)
    simp [Nat.testBit_mod_two_pow, Nat.testBit_or, Nat.testBit_shiftLeft, h,
      Nat.not_lt.mpr h, Nat.testBit_lt_two_pow hb2]

/-- Shifting an OR with a disjoint high part down by `B` recovers the high
field when the low field fits in `B` bits. -/
theorem lor_shiftLeft_shiftRight (b t B : Nat) (hb : b < 2 ^ B) :
    (b ||| (t <<< B)) >>> B = t := by
  apply Nat.eq_of_testBit_eq
  intro i
  have hb2 : b < 2 ^ (B + i) := lt_of_lt_of_le hb (Nat.pow_le_pow_right (by norm_num) (by omega))
  simp [Nat.testBit_shiftRight, Nat.testBit_or, Nat.testBit_shiftLeft,
    Nat.testBit_lt_two_pow hb2]

/-- C5: pushing `(blockId, blockIdBits)` then `(triangleIdx, NumTriangleBits)`
onto a fresh sub-shape id and popping `blockIdBits` then `NumTriangleBits`
yields the block id, then the triangle index, then an empty remainder; and
`MeshShape::DecodeSubShapeID` performs exactly this decoding (its remainder
check succeeds). -/
theorem subShapeID_roundtrip (B T b t : Nat) (hb : b < 2 ^ B) (ht : t < 2 ^ T) :
    (((((SubShapeIDCreator.empty.pushID b B).pushID t T).getID).popID B).1 = b) ∧
    ((((((SubShapeIDCreator.empty.pushID b B).pushID t T).getID).popID B).2.popID T).1 = t) ∧
    ((((((SubShapeIDCreator.empty.pushID b B).pushID t T).getID).popID B).2.popID
      T).2.isEmpty = true) ∧
    decodeSubShapeID B T (((SubShapeIDCreator.empty.pushID b B).pushID t T).getID)
      = (b, t, true) := by
  set id := ((SubShapeIDCreator.empty.pushID b B).pushID t T).getID with hid
  have hval : id.value = b ||| (t <<< B) := by
    rw [hid]
    simp [SubShapeIDCreator.empty, SubShapeIDCreator.pushID, SubShapeIDCreator.getID]
  have hwidth : id.width = B + T := by
    rw [hid]
    simp [SubShapeIDCreator.empty, SubShapeIDCreator.pushID, SubShapeIDCreator.getID]
  have hmask : ∀ x w : Nat, x &&& (1 <<< w - 1) = x % 2 ^ w := by
    intro x w
    rw [Nat.shiftLeft_eq, one_mul, Nat.and_pow_two_sub_one_eq_mod]
  have h1 : (id.popID B).1 = b := by
    rw [SubShapeID.popID, hval]
    simp only [hmask]
    exact lor_shiftLeft_mod b t B hb
  have hrem : (id.popID B).2 = ⟨t, T⟩ := by
    rw [SubShapeID.popID, hval, hwidth]
    simp [lor_shiftLeft_shiftRight b t B hb]
  have h2 : ((id.popID B).2.popID T).1 = t := by
    rw [hrem, SubShapeID.popID]
    simp only [hmask]
    exact Nat.mod_eq_of_lt ht
  have h3 : ((id.popID B).2.popID T).2 = ⟨0, 0⟩ := by
    rw [hrem, SubShapeID.popID]
    simp [Nat.shiftRight_eq_div_pow, Nat.div_eq_of_lt ht]
  refine ⟨h1, h2, by simp [h3, SubShapeID.isEmpty], ?_⟩
  simp [decodeSubShapeID, h1, h2, h3, SubShapeID.isEmpty]

theorem subShapeID_roundtrip_witness :
    (5 : Nat) < 2 ^ 12 ∧ (3 : Nat) < 2 ^ 2 ∧
    decodeSubShapeID 12 2 (((SubShapeIDCreator.empty.pushID 5 12).pushID 3 2).getID) =
      (5, 3, true) :=
  ⟨by norm_num, by norm_num,
    (subShapeID_roundtrip 12 2 5 3 (by norm_num) (by norm_num)).2.2.2⟩

/-! ### C1: the sanitizer -/

/-- Degeneracy read off a canonical triple. -/
def keyDegenerate (k : Nat × Nat × Nat) : Bool :=
  k.1 == k.2.1 || k.2.1 == k.2.2 || k.1 == k.2.2

/-- Canonicalization is a rotation, so it preserves degeneracy. -/
theorem keyDegenerate_canonKey (t : IndexedTriangle) :
    keyDegenerate (canonKey t) = t.isDegenerate := by
  unfold canonKey keyDegenerate IndexedTriangle.isDegenerate IndexedTriangle.getLowestIndexFirst
  split <;> split <;> simp only [] <;>
    (apply Bool.eq_iff_iff.mpr; simp only [Bool.or_eq_true, beq_iff_eq]; omega)

/-- The sanitizer loop only erases elements, so it returns a sublist. -/
theorem sanitizeAux_sublist (l : List IndexedTriangle) (seen : List (Nat × Nat × Nat)) :
    (sanitizeAux l seen).Sublist l := by
  induction l generalizing seen with
  | nil => simp [sanitizeAux]
  | cons t rest ih =>
    unfold sanitizeAux
    split
    · exact (ih seen).cons t
    · split
      · exact (ih seen).cons t
      · exact (ih (canonKey t :: seen)).cons₂ t

/-- Every survivor of the sanitizer loop is non-degenerate. -/
theorem sanitizeAux_nondegenerate (l : List IndexedTriangle) (seen : List (Nat × Nat × Nat)) :
    ∀ t ∈ sanitizeAux l seen, t.isDegenerate = false := by
  induction l generalizing seen with
  | nil => simp [sanitizeAux]
  | cons t rest ih =>
    unfold sanitizeAux
    split
    · exact ih seen
    · split
      · exact ih seen
      · intro u hu
        rcases List.mem_cons.mp hu with h | h
        · subst h; simp_all
        · exact ih _ u h

/-- No survivor's canonical triple was already in the seen-set. -/
theorem sanitizeAux_notSeen (l : List IndexedTriangle) (seen : List (Nat × Nat × Nat)) :
    ∀ t ∈ sanitizeAux l seen, canonKey t ∉ seen := by
  induction l generalizing seen with
  | nil => simp [sanitizeAux]
  | cons t rest ih =>
    unfold sanitizeAux
    split
    · exact ih seen
    · split
      · exact ih seen
      · intro u hu
        rcases List.mem_cons.mp hu with h | h
        · subst h; assumption
        · intro hs
          exact ih (canonKey t :: seen) u h (List.mem_cons_of_mem _ hs)

/-- Survivors of the sanitizer loop have pairwise distinct canonical
triples. -/
theorem sanitizeAux_pairwise (l : List IndexedTriangle) (seen : List (Nat × Nat × Nat)) :
    (sanitizeAux l seen).Pairwise (fun a b => canonKey a ≠ canonKey b) := by
  induction l generalizing seen with
  | nil => simp [sanitizeAux]
  | cons t rest ih =>
    unfold sanitizeAux
    split
    · exact ih seen
    · split
      · exact ih seen
      · refine List.Pairwise.cons ?_ (ih (canonKey t :: seen))
        intro b hb heq
        exact sanitizeAux_notSeen rest (canonKey t :: seen) b hb (heq ▸ List.mem_cons_self _ _)

/-- Every non-degenerate input triangle is represented: its canonical triple
was either already seen or occurs among the survivors. -/
theorem sanitizeAux_complete (l : List IndexedTriangle) (seen : List (Nat × Nat × Nat)) :
    ∀ t ∈ l, t.isDegenerate = false →
      canonKey t ∈ seen ∨ ∃ s ∈ sanitizeAux l seen, canonKey s = canonKey t := by
  induction l generalizing seen with
  | nil => simp
  | cons t rest ih =>
    intro u hu hnd
    unfold sanitizeAux
    rcases List.mem_cons.mp hu with h | h
    · subst h
      split
      · simp_all
      · split
        · left; assumption
        · right
          exact ⟨u, List.mem_cons_self _ _, rfl⟩
    · split
      · exact ih seen u h hnd
      · split
        · exact ih seen u h hnd
        · rcases ih (canonKey t :: seen) u h hnd with hin | ⟨s, hs, he⟩
          · rcases List.mem_cons.mp hin with he | hin2
            · right; exact ⟨t, List.mem_cons_self _ _, he.symm⟩
            · left; exact hin2
          · right; exact ⟨s, List.mem_cons_of_mem _ hs, he⟩

/-- A survivor is the first element of the processed list carrying its
canonical triple: everything in front of it has a different triple. -/
theorem sanitizeAux_first (l : List IndexedTriangle) (seen : List (Nat × Nat × Nat)) :
    ∀ s ∈ sanitizeAux l seen,
      ∃ pre post, l = pre ++ s :: post ∧ ∀ u ∈ pre, canonKey u ≠ canonKey s := by
  induction l generalizing seen with
  | nil => simp [sanitizeAux]
  | cons t rest ih =>
    intro s hs
    unfold sanitizeAux at hs
    split at hs
    · obtain ⟨pre, post, hsplit, hpre⟩ := ih seen s hs
      refine ⟨t :: pre, post, by simp [hsplit], ?_⟩
      intro u hu
      rcases List.mem_cons.mp hu with h | h
      · subst h
        intro he
        have h1 : keyDegenerate (canonKey u) = u.isDegenerate := keyDegenerate_canonKey u
        have h2 : keyDegenerate (canonKey s) = s.isDegenerate := keyDegenerate_canonKey s
        have h3 : s.isDegenerate = false := sanitizeAux_nondegenerate rest seen s hs
        rw [he] at h1
        simp_all
      · exact hpre u h
    · split at hs
      · obtain ⟨pre, post, hsplit, hpre⟩ := ih seen s hs
        refine ⟨t :: pre, post, by simp [hsplit], ?_⟩
        intro u hu
        rcases List.mem_cons.mp hu with h | h
        · subst h
          intro he
          have := sanitizeAux_notSeen rest seen s hs
          rw [← he] at this
          exact this (by assumption)
        · exact hpre u h
      · rcases List.mem_cons.mp hs with h | h
        · subst h
          exact ⟨[], rest, rfl, by simp⟩
        · obtain ⟨pre, post, hsplit, hpre⟩ := ih (canonKey t :: seen) s h
          refine ⟨t :: pre, post, by simp [hsplit], ?_⟩
          intro u hu
          rcases List.mem_cons.mp hu with h2 | h2
          · subst h2
            intro he
            have := sanitizeAux_notSeen rest (canonKey u :: seen) s h
            exact this (he ▸ List.mem_cons_self _ _)
          · exact hpre u h2

/-- C1 (amended): `Sanitize` returns a subsequence of the input holding no
degenerate triangle and no two triangles with the same canonical
(lowest-index-first) triple; every non-degenerate input triangle's canonical
triple is represented, and the retained survivor of each canonical triple is
the *last* occurrence of that triple in the input order (nothing after a
survivor shares its triple) — the source loop walks the list backwards, so
the last occurrence wins, not the first. -/
theorem sanitize_spec (l : List IndexedTriangle) :
    (sanitize l).Sublist l ∧
    (∀ t ∈ sanitize l, t.isDegenerate = false) ∧
    (sanitize l).Pairwise (fun a b => canonKey a ≠ canonKey b) ∧
    (∀ t ∈ l, t.isDegenerate = false → ∃ s ∈ sanitize l, canonKey s = canonKey t) ∧
    (∀ s ∈ sanitize l, ∃ pre post, l = pre ++ s :: post ∧ ∀ u ∈ post, canonKey u ≠ canonKey s) := by
  refine ⟨?_, ?_, ?_, ?_, ?_⟩
  · have h := (sanitizeAux_sublist l.reverse []).reverse
    simpa [sanitize] using h
  · intro t ht
    exact sanitizeAux_nondegenerate l.reverse [] t (by simpa [sanitize] using ht)
  · rw [sanitize, List.pairwise_reverse]
    exact (sanitizeAux_pairwise l.reverse []).imp fun h => Ne.symm h
  · intro t ht hnd
    rcases sanitizeAux_complete l.reverse [] t (List.mem_reverse.mpr ht) hnd with h | ⟨s, hs, he⟩
    · simp at h
    · exact ⟨s, by simpa [sanitize] using hs, he⟩
  · intro s hs
    obtain ⟨pre, post, hsplit, hpre⟩ :=
      sanitizeAux_first l.reverse [] s (by simpa [sanitize] using hs)
    refine ⟨post.reverse, pre.reverse, ?_, ?_⟩
    · have := congrArg List.reverse hsplit
      simpa [List.reverse_append] using this
    · intro u hu
      exact hpre u (List.mem_reverse.mp hu)

theorem sanitize_spec_witness :
    ∃ s ∈ sanitize [⟨1, 2, 0, 0⟩, ⟨0, 1, 2, 0⟩], canonKey s = canonKey ⟨1, 2, 0, 0⟩ :=
  (sanitize_spec [⟨1, 2, 0, 0⟩, ⟨0, 1, 2, 0⟩]).2.2.2.1 ⟨1, 2, 0, 0⟩ (by decide) (by decide)

/-- C1 counterexample to the claim as stated: the triangles `(1,2,0)` and
`(0,1,2)` share the canonical triple `(0,1,2)`; the first occurrence
`(1,2,0)` is *not* retained — `Sanitize` keeps the later occurrence
`(0,1,2)`. -/
theorem sanitize_keeps_last_not_first :
    sanitize [⟨1, 2, 0, 0⟩, ⟨0, 1, 2, 0⟩] = [⟨0, 1, 2, 0⟩] ∧
    (⟨1, 2, 0, 0⟩ : IndexedTriangle).isDegenerate = false ∧
    canonKey ⟨1, 2, 0, 0⟩ = canonKey ⟨0, 1, 2, 0⟩ ∧
    (⟨1, 2, 0, 0⟩ : IndexedTriangle) ∉ sanitize [⟨1, 2, 0, 0⟩, ⟨0, 1, 2, 0⟩] := by
  decide

/-! ### C3: the material-count check -/

/-- C3: the constructor rejects a mesh with `FLAGS_MATERIAL_MASK + 1`
materials (with an otherwise valid single triangle) via the
too-many-materials error, although that count still fits the flag word's
material field; the claim's acceptance criterion (`count > MaterialMask + 1`)
does not hold at this input. -/
theorem meshShape_rejects_materialMask_plus_one :
    meshShapeValidate 3 (FLAGS_MATERIAL_MASK + 1) [⟨0, 1, 2, 0⟩] = some .tooManyMaterials ∧
    ¬ (FLAGS_MATERIAL_MASK + 1 > FLAGS_MATERIAL_MASK + 1) ∧
    FLAGS_MATERIAL_MASK < 2 ^ FLAGS_ACTIVE_EGDE_SHIFT := by
  refine ⟨by decide, by decide, by decide⟩

/-! ### C2 and C9: the active-edge analyzer -/

/-- Geometric 3-vectors (machine floats modelled by `ℚ`). -/
abbrev Vec3 := ℚ × ℚ × ℚ

/-- The local `Edge` struct of `FindActiveEdges`: an unordered vertex pair
stored with the smaller index first. -/
structure Edge where
  mIdx1 : Nat
  mIdx2 : Nat
deriving DecidableEq, Inhabited

/-- The `Edge` constructor: `mIdx1 = min`, `mIdx2 = max`. -/
def mkEdge (a b : Nat) : Edge := ⟨min a b, max a b⟩

/-- The edge at position `k` of a triangle: from `mIdx[k]` to
`mIdx[(k + 1) % 3]`, as an unordered pair. -/
def IndexedTriangle.edge (t : IndexedTriangle) (k : Nat) : Edge :=
  mkEdge (t.mIdx k) (t.mIdx (k + 1))

/-- `Edge::GetIndexInTriangle`: the first position `0`, `1` or `2` of the
triangle whose edge equals this edge; `3` stands for the source's
`~uint(0)` not-found marker (asserted unreachable there). -/
def Edge.getIndexInTriangle (e : Edge) (t : IndexedTriangle) : Nat :=
  if t.edge 0 = e then 0
  else if t.edge 1 = e then 1
  else if t.edge 2 = e then 2
  else 3

/-- The edge-to-triangle multimap entry for `e`: the source loops over the
triangles in order and, for each of the three edge positions in order,
appends the triangle index under the edge's key.  (With a degenerate
triangle the same index can be appended twice for one key.) -/
def incidentTriangles (tris : List IndexedTriangle) (e : Edge) : List Nat :=
  (List.range tris.length).flatMap fun i =>
    [0, 1, 2].filterMap fun k =>
      if (tris.getD i default).edge k = e then some i else none

/-- The key set of the edge-to-triangle map: every edge of every triangle,
kept once.  The `unordered_map` iteration order is unspecified; the final
flag words do not depend on it because each edge ORs a fixed bit into each
incident triangle, so we fix the first-encounter order. -/
def edgeKeys (tris : List IndexedTriangle) : List Edge :=
  (tris.flatMap fun t => [t.edge 0, t.edge 1, t.edge 2]).dedup

/-- The classification step of `FindActiveEdges`: one incident triangle
(boundary) is active; two incident triangles defer to the external
`ActiveEdges::IsEdgeActive` on the two CCW plane normals
(`Plane::sFromPointsCCW`, abstracted as `ccwNormal`) and the edge direction
taken from the first triangle; three or more (non-manifold) are active.
An edge with no incident triangle never occurs among the map keys. -/
def edgeActive (isEdgeActive : Vec3 → Vec3 → Vec3 → Bool)
    (ccwNormal : Vec3 → Vec3 → Vec3 → Vec3)
    (verts : List Vec3) (tris : List IndexedTriangle) (e : Edge) : Bool :=
  match incidentTriangles tris e with
  | [_] => true
  | [i1, i2] =>
    let triangle1 := tris.getD i1 default
    let triangle2 := tris.getD i2 default
    let edgeIdx1 := e.getIndexInTriangle triangle1
    let edgeIdx2 := e.getIndexInTriangle triangle2
    let v : Nat → Vec3 := fun n => verts.getD n ((0 : ℚ), (0 : ℚ), (0 : ℚ))
    isEdgeActive
      (ccwNormal (v (triangle1.mIdx edgeIdx1)) (v (triangle1.mIdx (edgeIdx1 + 1)))
        (v (triangle1.mIdx (edgeIdx1 + 2))))
      (ccwNormal (v (triangle2.mIdx edgeIdx2)) (v (triangle2.mIdx (edgeIdx2 + 1)))
        (v (triangle2.mIdx (edgeIdx2 + 2))))
      (v (triangle1.mIdx (edgeIdx1 + 1)) - v (triangle1.mIdx edgeIdx1))
  | [] => false
  | _ => true

/-- The marking loop of `FindActiveEdges` restricted to one triangle: for
every active map edge incident on triangle `i`, OR the bit
`1 << (edge position in the triangle + FLAGS_ACTIVE_EGDE_SHIFT)` into the
flag word.  ORing is idempotent, so testing membership in the incidence
list is equivalent to walking its (possibly repeated) entries. -/
def markTriangleFlags (act : Edge → Bool) (tris : List IndexedTriangle) (i : Nat)
    (t : IndexedTriangle) : Nat :=
  (edgeKeys tris).foldl
    (fun flags e =>
      if act e && decide (i ∈ incidentTriangles tris e) then
        flags ||| (1 <<< (e.getIndexInTriangle t + FLAGS_ACTIVE_EGDE_SHIFT))
      else flags)
    t.mMaterialIndex

/-- `FindActiveEdges` with the per-edge activity decision abstracted out:
every triangle keeps its indices and receives the marked flag word. -/
def findActiveEdgesWith (act : Edge → Bool) (tris : List IndexedTriangle) :
    List IndexedTriangle :=
  tris.mapIdx fun i t => ⟨t.idx0, t.idx1, t.idx2, markTriangleFlags act tris i t⟩

/-- `MeshShape::FindActiveEdges`: classify every edge of the map and fold
the resulting active bits into the triangles' flag words. -/
def findActiveEdges (isEdgeActive : Vec3 → Vec3 → Vec3 → Bool)
    (ccwNormal : Vec3 → Vec3 → Vec3 → Vec3)
    (verts : List Vec3) (tris : List IndexedTriangle) : List IndexedTriangle :=
  findActiveEdgesWith (edgeActive isEdgeActive ccwNormal verts tris) tris

/-- Whether, in the processed triangle list `newTris`, triangle `j` has the
active-edge bit of edge `e` set: the bit at position
`FLAGS_ACTIVE_EGDE_SHIFT + (position of e within triangle j)`. -/
def hasActiveEdgeBit (newTris oldTris : List IndexedTriangle) (e : Edge) (j : Nat) : Bool :=
  ((newTris.getD j default).mMaterialIndex).testBit
    ((e.getIndexInTriangle (oldTris.getD j default)) + FLAGS_ACTIVE_EGDE_SHIFT)

/-- A non-degenerate triangle's three unordered edges are pairwise
distinct. -/
theorem edges_distinct (t : IndexedTriangle) (h : t.isDegenerate = false) :
    t.edge 0 ≠ t.edge 1 ∧ t.edge 1 ≠ t.edge 2 ∧ t.edge 0 ≠ t.edge 2 := by
  simp only [IndexedTriangle.isDegenerate, Bool.or_eq_false_iff, beq_eq_false_iff_ne] at h
  simp only [IndexedTriangle.edge, IndexedTriangle.mIdx, mkEdge, Edge.mk.injEq, ne_eq]
  norm_num
  omega

/-- On a non-degenerate triangle, `GetIndexInTriangle` inverts
`IndexedTriangle.edge`. -/
theorem getIndexInTriangle_edge (t : IndexedTriangle) (h : t.isDegenerate = false)
    (k : Nat) (hk : k < 3) : (t.edge k).getIndexInTriangle t = k := by
  obtain ⟨h01, h12, h02⟩ := edges_distinct t h
  interval_cases k <;>
    simp [Edge.getIndexInTriangle, h01, h12, h02, Ne.symm h01, Ne.symm h12, Ne.symm h02]

/-- Membership in the incidence list means: an in-range triangle that has the
edge at one of its three positions. -/
theorem mem_incidentTriangles (tris : List IndexedTriangle) (e : Edge) (i : Nat) :
    i ∈ incidentTriangles tris e ↔
      i < tris.length ∧ ∃ k < 3, (tris.getD i default).edge k = e := by
  simp only [incidentTriangles, List.mem_flatMap, List.mem_range, List.mem_filterMap]
  constructor
  · rintro ⟨j, hj, k, hk, hcond⟩
    split at hcond
    · cases hcond
      refine ⟨hj, k, ?_, by assumption⟩
      simp at hk
      rcases hk with h | h | h <;> omega
    · cases hcond
  · rintro ⟨hi, k, hk3, hek⟩
    refine ⟨i, hi, k, ?_, ?_⟩
    · simp; omega
    · rw [if_pos hek]

/-- Membership in the key set means being an edge of some triangle. -/
theorem mem_edgeKeys (tris : List IndexedTriangle) (e : Edge) :
    e ∈ edgeKeys tris ↔ ∃ t ∈ tris, ∃ k < 3, t.edge k = e := by
  simp only [edgeKeys, List.mem_dedup, List.mem_flatMap]
  constructor
  · rintro ⟨t, ht, hmem⟩
    simp at hmem
    rcases hmem with h | h | h
    · exact ⟨t, ht, 0, by norm_num, h.symm⟩
    · exact ⟨t, ht, 1, by norm_num, h.symm⟩
    · exact ⟨t, ht, 2, by norm_num, h.symm⟩
  · rintro ⟨t, ht, k, hk, hek⟩
    refine ⟨t, ht, ?_⟩
    interval_cases k <;> simp [← hek]

/-- A bit of the OR-marking fold is set when it was set initially or some
processed edge contributes exactly that bit. -/
theorem testBit_markLoop (l : List Edge) (cond : Edge → Bool) (pos : Edge → Nat)
    (init : Nat) (p : Nat) :
    (l.foldl (fun flags e => if cond e then flags ||| (1 <<< pos e) else flags) init).testBit p
      = (init.testBit p || l.any fun e => cond e && pos e == p) := by
  induction l generalizing init with
  | nil => simp
  | cons e rest ih =>
    simp only [List.foldl_cons, List.any_cons]
    by_cases hc : cond e = true
    · rw [if_pos hc, ih]
      have h1 : (1 <<< pos e) = 2 ^ pos e := by rw [Nat.shiftLeft_eq, one_mul]
      rw [Nat.testBit_or, h1, Nat.testBit_two_pow]
      by_cases hp : pos e = p <;>
        cases hic : init.testBit p <;>
        cases ha : rest.any (fun e => cond e && pos e == p) <;>
        simp [hp, hc, hic, ha]
    · simp only [Bool.not_eq_true] at hc
      rw [if_neg (by simp [hc]), ih]
      simp [hc]

/-- `testBit_markLoop` specialized to `markTriangleFlags`. -/
theorem testBit_markTriangleFlags (act : Edge → Bool) (tris : List IndexedTriangle)
    (i : Nat) (t : IndexedTriangle) (p : Nat) :
    (markTriangleFlags act tris i t).testBit p
      = (t.mMaterialIndex.testBit p ||
          (edgeKeys tris).any fun e =>
            (act e && decide (i ∈ incidentTriangles tris e)) &&
              e.getIndexInTriangle t + FLAGS_ACTIVE_EGDE_SHIFT == p) := by
  exact testBit_markLoop (edgeKeys tris)
    (fun e => act e && decide (i ∈ incidentTriangles tris e))
    (fun e => e.getIndexInTriangle t + FLAGS_ACTIVE_EGDE_SHIFT) t.mMaterialIndex p

/-- Master bit lemma: on non-degenerate triangles with a clean active-edge
field, the bit of edge `e` in an incident triangle `j` is set after marking
exactly when `e` is classified active.  Distinct edges of a non-degenerate
triangle occupy distinct positions, so no other edge can contribute the same
bit. -/
theorem bit_eq_act (act : Edge → Bool) (tris : List IndexedTriangle) (e : Edge) (j : Nat)
    (hj : j ∈ incidentTriangles tris e)
    (hnd : ∀ t ∈ tris, t.isDegenerate = false)
    (hfl : ∀ t ∈ tris, t.mMaterialIndex < 2 ^ FLAGS_ACTIVE_EGDE_SHIFT) :
    (markTriangleFlags act tris j (tris.getD j default)).testBit
        ((e.getIndexInTriangle (tris.getD j default)) + FLAGS_ACTIVE_EGDE_SHIFT)
      = act e := by
  obtain ⟨hjlen, k0, hk03, hk0⟩ := (mem_incidentTriangles tris e j).mp hj
  set t := tris.getD j default with ht
  have htmem : t ∈ tris := by
    rw [ht, List.getD_eq_getElem tris default hjlen]
    exact List.getElem_mem hjlen
  have hndt : t.isDegenerate = false := hnd t htmem
  have hflt : t.mMaterialIndex < 2 ^ FLAGS_ACTIVE_EGDE_SHIFT := hfl t htmem
  have hpos : (t.edge k0).getIndexInTriangle t = k0 := getIndexInTriangle_edge t hndt k0 hk03
  have holdbit : t.mMaterialIndex.testBit (e.getIndexInTriangle t + FLAGS_ACTIVE_EGDE_SHIFT)
      = false := by
    apply Nat.testBit_lt_two_pow
    calc t.mMaterialIndex < 2 ^ FLAGS_ACTIVE_EGDE_SHIFT := hflt
      _ ≤ 2 ^ (e.getIndexInTriangle t + FLAGS_ACTIVE_EGDE_SHIFT) :=
        Nat.pow_le_pow_right (by norm_num) (by omega)
  rw [testBit_markTriangleFlags, holdbit, Bool.false_or]
  have hekeys : e ∈ edgeKeys tris := by
    rw [mem_edgeKeys]
    exact ⟨t, htmem, k0, hk03, hk0⟩
  by_cases ha : act e = true
  · rw [ha]
    rw [List.any_eq_true]
    refine ⟨e, hekeys, ?_⟩
    simp [ha, hj]
  · simp only [Bool.not_eq_true] at ha
    rw [ha]
    rw [List.any_eq_false]
    intro e2 he2
    simp only [Bool.and_eq_true, beq_iff_eq, not_and]
    intro hcond hpeq
    simp only [Bool.and_eq_true, decide_eq_true_eq] at hcond
    obtain ⟨hact2, hj2⟩ := hcond
    obtain ⟨_, k2, hk23, hk2⟩ := (mem_incidentTriangles tris e2 j).mp hj2
    have hpos2 : e2.getIndexInTriangle t = k2 := by
      rw [← hk2]
      exact getIndexInTriangle_edge t hndt k2 hk23
    have hpos0 : e.getIndexInTriangle t = k0 := by
      rw [← hk0]
      exact getIndexInTriangle_edge t hndt k0 hk03
    have hkk : k2 = k0 := by omega
    subst hkk
    rw [hk2] at hk0
    rw [hk0] at hact2
    rw [hact2] at ha
    cases ha

/-- Reading an element of `findActiveEdgesWith` in bounds. -/
theorem findActiveEdgesWith_getD (act : Edge → Bool) (tris : List IndexedTriangle)
    (j : Nat) (hj : j < tris.length) :
    (findActiveEdgesWith act tris).getD j default =
      ⟨(tris.getD j default).idx0, (tris.getD j default).idx1, (tris.getD j default).idx2,
        markTriangleFlags act tris j (tris.getD j default)⟩ := by
  rw [findActiveEdgesWith, List.mapIdx_eq_enum_map]
  rw [List.getD_eq_getElem _ _ (by simpa using hj), List.getD_eq_getElem _ _ hj]
  simp [List.getElem_map, List.getElem_enum]

/-- `meshShapeValidate` passing implies every triangle is non-degenerate and
its flag word has no bits at or above the active-edge shift: with materials
the word is below the material count, itself at most `FLAGS_MATERIAL_MASK`;
without materials it is zero. -/
theorem meshShapeValidate_facts (nv nm : Nat) (tris : List IndexedTriangle)
    (h : meshShapeValidate nv nm tris = none) :
    ∀ t ∈ tris, t.isDegenerate = false ∧ t.mMaterialIndex < 2 ^ FLAGS_ACTIVE_EGDE_SHIFT := by
  rw [meshShapeValidate] at h
  split at h
  · cases h
  · intro t ht
    obtain ⟨i, hi, hit⟩ := List.mem_iff_getElem.mp ht
    have hen : (i, t) ∈ tris.enum.reverse := by
      rw [List.mem_reverse, List.mem_enum_iff_getElem?]
      simp only
      rw [List.getElem?_eq_getElem hi, hit]
    split at h
    · cases h
    · rename_i herr
      have hnone : ∀ x ∈ tris.enum.reverse,
          (if (x.2).isDegenerate then some (MeshError.degenerateTriangle x.1)
           else if nv ≤ (x.2).idx0 ∨ nv ≤ (x.2).idx1 ∨ nv ≤ (x.2).idx2 then
             some (.vertexIndexOutOfRange x.1)
           else none) = none := by
        rw [← List.findSome?_eq_none_iff]
        exact herr
      have hdeg : t.isDegenerate = false := by
        have := hnone (i, t) hen
        split at this
        · cases this
        · simpa using (by assumption : ¬ t.isDegenerate = true)
      refine ⟨hdeg, ?_⟩
      rw [materialError] at h
      split at h
      · split at h
        · cases h
        · rename_i hnm hle
          have hnone2 : ∀ x ∈ tris.enum,
              (if nm ≤ (x.2).mMaterialIndex then some (MeshError.materialOutOfRange x.1)
               else none) = none := by
            rw [← List.findSome?_eq_none_iff]
            exact h
          have := hnone2 (i, t) (List.mem_reverse.mp hen)
          split at this
          · cases this
          · rename_i hlt
            have hlt2 : ¬ nm ≤ t.mMaterialIndex := hlt
            have h32 : (2 : Nat) ^ FLAGS_ACTIVE_EGDE_SHIFT = 32 := by
              norm_num [FLAGS_ACTIVE_EGDE_SHIFT]
            rw [h32]
            simp only [FLAGS_MATERIAL_MASK] at hle
            omega
      · rename_i hnm
        have hnone3 : ∀ x ∈ tris,
            (if x.mMaterialIndex ≠ 0 then some MeshError.materialNonZero else none) = none := by
          rw [← List.findSome?_eq_none_iff]
          exact h
        have := hnone3 t ht
        split at this
        · cases this
        · rename_i hz
          simp only [ne_eq, not_not] at hz
          rw [hz]
          norm_num [FLAGS_ACTIVE_EGDE_SHIFT]

/-- `hasActiveEdgeBit` after marking equals the activity decision. -/
theorem hasActiveEdgeBit_eq (act : Edge → Bool) (tris : List IndexedTriangle) (e : Edge)
    (j : Nat) (hj : j ∈ incidentTriangles tris e)
    (hnd : ∀ t ∈ tris, t.isDegenerate = false)
    (hfl : ∀ t ∈ tris, t.mMaterialIndex < 2 ^ FLAGS_ACTIVE_EGDE_SHIFT) :
    hasActiveEdgeBit (findActiveEdgesWith act tris) tris e j = act e := by
  have hjlen := ((mem_incidentTriangles tris e j).mp hj).1
  rw [hasActiveEdgeBit, findActiveEdgesWith_getD act tris j hjlen]
  exact bit_eq_act act tris e j hj hnd hfl

/-- A boundary edge (one incident triangle) is classified active. -/
theorem edgeActive_single (isEA : Vec3 → Vec3 → Vec3 → Bool) (ccwN : Vec3 → Vec3 → Vec3 → Vec3)
    (verts : List Vec3) (tris : List IndexedTriangle) (e : Edge) (i : Nat)
    (hinc : incidentTriangles tris e = [i]) :
    edgeActive isEA ccwN verts tris e = true := by
  unfold edgeActive
  rw [hinc]

/-- A non-manifold edge (three or more incident triangles) is classified
active. -/
theorem edgeActive_many (isEA : Vec3 → Vec3 → Vec3 → Bool) (ccwN : Vec3 → Vec3 → Vec3 → Vec3)
    (verts : List Vec3) (tris : List IndexedTriangle) (e : Edge)
    (h3 : 3 ≤ (incidentTriangles tris e).length) :
    edgeActive isEA ccwN verts tris e = true := by
  unfold edgeActive
  rcases hinc : incidentTriangles tris e with _ | ⟨a, _ | ⟨b, _ | ⟨c, tl⟩⟩⟩ <;>
    rw [hinc] at h3 <;> simp at h3 ⊢

/-- On a doubly-incident edge the classification is exactly the external
predicate applied to the two CCW plane normals and the edge direction. -/
theorem edgeActive_two (isEA : Vec3 → Vec3 → Vec3 → Bool) (ccwN : Vec3 → Vec3 → Vec3 → Vec3)
    (verts : List Vec3) (tris : List IndexedTriangle) (e : Edge) (i1 i2 : Nat)
    (hinc : incidentTriangles tris e = [i1, i2]) :
    edgeActive isEA ccwN verts tris e =
      (let triangle1 := tris.getD i1 default
       let triangle2 := tris.getD i2 default
       let edgeIdx1 := e.getIndexInTriangle triangle1
       let edgeIdx2 := e.getIndexInTriangle triangle2
       let v : Nat → Vec3 := fun n => verts.getD n ((0 : ℚ), (0 : ℚ), (0 : ℚ))
       isEA
        (ccwN (v (triangle1.mIdx edgeIdx1)) (v (triangle1.mIdx (edgeIdx1 + 1)))
          (v (triangle1.mIdx (edgeIdx1 + 2))))
        (ccwN (v (triangle2.mIdx edgeIdx2)) (v (triangle2.mIdx (edgeIdx2 + 1)))
          (v (triangle2.mIdx (edgeIdx2 + 2))))
        (v (triangle1.mIdx (edgeIdx1 + 1)) - v (triangle1.mIdx edgeIdx1))) := by
  unfold edgeActive
  rw [hinc]

/-- C2: after successful construction (validation passed), for every
unordered edge of the mesh: a single-incidence edge has its active-edge bit
set in its triangle; with three or more incident triangles the bit is set in
all of them; with exactly two incident triangles the bits are set in both
exactly when the external `IsEdgeActive` predicate holds on the two
triangles' CCW plane normals and the edge direction.  The bit tested is the
one at `FLAGS_ACTIVE_EGDE_SHIFT + (position of the edge in that
triangle)`. -/
theorem findActiveEdges_spec (isEA : Vec3 → Vec3 → Vec3 → Bool)
    (ccwN : Vec3 → Vec3 → Vec3 → Vec3) (verts : List Vec3) (tris : List IndexedTriangle)
    (nv nm : Nat) (hval : meshShapeValidate nv nm tris = none) :
    ∀ e : Edge,
      ((incidentTriangles tris e).length = 1 →
        ∀ j ∈ incidentTriangles tris e,
          hasActiveEdgeBit (findActiveEdges isEA ccwN verts tris) tris e j = true) ∧
      (3 ≤ (incidentTriangles tris e).length →
        ∀ j ∈ incidentTriangles tris e,
          hasActiveEdgeBit (findActiveEdges isEA ccwN verts tris) tris e j = true) ∧
      (∀ i1 i2, incidentTriangles tris e = [i1, i2] →
        ((hasActiveEdgeBit (findActiveEdges isEA ccwN verts tris) tris e i1 = true ∧
          hasActiveEdgeBit (findActiveEdges isEA ccwN verts tris) tris e i2 = true) ↔
          (let triangle1 := tris.getD i1 default
           let triangle2 := tris.getD i2 default
           let edgeIdx1 := e.getIndexInTriangle triangle1
           let edgeIdx2 := e.getIndexInTriangle triangle2
           let v : Nat → Vec3 := fun n => verts.getD n ((0 : ℚ), (0 : ℚ), (0 : ℚ))
           isEA
            (ccwN (v (triangle1.mIdx edgeIdx1)) (v (triangle1.mIdx (edgeIdx1 + 1)))
              (v (triangle1.mIdx (edgeIdx1 + 2))))
            (ccwN (v (triangle2.mIdx edgeIdx2)) (v (triangle2.mIdx (edgeIdx2 + 1)))
              (v (triangle2.mIdx (edgeIdx2 + 2))))
            (v (triangle1.mIdx (edgeIdx1 + 1)) - v (triangle1.mIdx edgeIdx1))) = true)) := by
  have hnd : ∀ t ∈ tris, t.isDegenerate = false := fun t ht =>
    (meshShapeValidate_facts nv nm tris hval t ht).1
  have hfl : ∀ t ∈ tris, t.mMaterialIndex < 2 ^ FLAGS_ACTIVE_EGDE_SHIFT := fun t ht =>
    (meshShapeValidate_facts nv nm tris hval t ht).2
  intro e
  refine ⟨?_, ?_, ?_⟩
  · intro hlen j hj
    rw [findActiveEdges, hasActiveEdgeBit_eq _ tris e j hj hnd hfl]
    rcases hinc : incidentTriangles tris e with _ | ⟨a, _ | ⟨b, tl⟩⟩ <;> rw [hinc] at hlen <;>
      simp at hlen
    exact edgeActive_single isEA ccwN verts tris e a hinc
  · intro hlen j hj
    rw [findActiveEdges, hasActiveEdgeBit_eq _ tris e j hj hnd hfl]
    exact edgeActive_many isEA ccwN verts tris e hlen
  · intro i1 i2 hinc
    have h1 : i1 ∈ incidentTriangles tris e := by rw [hinc]; simp
    have h2 : i2 ∈ incidentTriangles tris e := by rw [hinc]; simp
    rw [findActiveEdges, hasActiveEdgeBit_eq _ tris e i1 h1 hnd hfl,
      hasActiveEdgeBit_eq _ tris e i2 h2 hnd hfl,
      edgeActive_two isEA ccwN verts tris e i1 i2 hinc]
    simp only []
    constructor
    · exact fun h => h.1
    · exact fun h => ⟨h, h⟩

theorem findActiveEdges_spec_witness :
    meshShapeValidate 3 0 [⟨0, 1, 2, 0⟩] = none ∧
    hasActiveEdgeBit
      (findActiveEdges (fun _ _ _ => false) (fun _ _ _ => ((0 : ℚ), (0 : ℚ), (0 : ℚ)))
        [((0 : ℚ), (0 : ℚ), (0 : ℚ)), ((1 : ℚ), (0 : ℚ), (0 : ℚ)), ((0 : ℚ), (1 : ℚ), (0 : ℚ))]
        [⟨0, 1, 2, 0⟩])
      [⟨0, 1, 2, 0⟩] (mkEdge 0 1) 0 = true :=
  ⟨by decide,
    ((findActiveEdges_spec (fun _ _ _ => false) (fun _ _ _ => ((0 : ℚ), (0 : ℚ), (0 : ℚ)))
      [((0 : ℚ), (0 : ℚ), (0 : ℚ)), ((1 : ℚ), (0 : ℚ), (0 : ℚ)), ((0 : ℚ), (1 : ℚ), (0 : ℚ))]
      [⟨0, 1, 2, 0⟩] 3 0 (by decide)) (mkEdge 0 1)).1 (by decide) 0 (by decide)⟩

/-! ### C9: the bit-marking assertion -/

/-- Number of markings the `FindActiveEdges` loop performs on the bit at
position `pos + FLAGS_ACTIVE_EGDE_SHIFT` of triangle `i`: each active map
edge contributes one marking per occurrence of `i` in its incidence list,
provided its position within the triangle is `pos`. -/
def markCount (act : Edge → Bool) (tris : List IndexedTriangle) (i pos : Nat) : Nat :=
  ((edgeKeys tris).map fun e =>
    if act e && (e.getIndexInTriangle (tris.getD i default) == pos) then
      (incidentTriangles tris e).count i
    else 0).sum

/-- Whether the `JPH_ASSERT((triangle.mMaterialIndex & mask) == 0)` at the
bit-marking site fires for some processing order of the edge map.  A marking
finds the bit already set exactly when the bit was set in the input flag
word or at least two markings target the same bit; both conditions are
independent of the (unspecified) map iteration order: with at most one
setter the single marking sees a clear bit in any order, with two or more
the later one always sees a set bit. -/
def activeEdgeAssertFires (act : Edge → Bool) (tris : List IndexedTriangle) : Bool :=
  (List.range tris.length).any fun i =>
    (List.range 3).any fun pos =>
      ((tris.getD i default).mMaterialIndex.testBit (pos + FLAGS_ACTIVE_EGDE_SHIFT)
          && decide (1 ≤ markCount act tris i pos))
        || decide (2 ≤ markCount act tris i pos)

/-- When every emitted element of every chunk equals its chunk index, an
index absent from the outer list never occurs in the flattening. -/
theorem count_flatMap_zero (L : List Nat) (f : Nat → List Nat) (i : Nat)
    (hf : ∀ j, ∀ x ∈ f j, x = j) (hi : i ∉ L) :
    ((L.flatMap f).count i) = 0 := by
  rw [List.count_eq_zero]
  intro hmem
  obtain ⟨j, hj, hx⟩ := List.mem_flatMap.mp hmem
  have := hf j i hx
  subst this
  exact hi hj

/-- Under the same chunk discipline, occurrences of `i` in the flattening are
bounded by the length of `i`'s own chunk. -/
theorem count_flatMap_le (L : List Nat) (f : Nat → List Nat) (i : Nat)
    (hf : ∀ j, ∀ x ∈ f j, x = j) (hnd : L.Nodup) :
    ((L.flatMap f).count i) ≤ (f i).length := by
  induction L with
  | nil => simp
  | cons j tl ih =>
    rw [List.flatMap_cons, List.count_append]
    have hrest := ih (List.Nodup.of_cons hnd)
    by_cases hji : j = i
    · subst hji
      have hz : (tl.flatMap f).count j = 0 :=
        count_flatMap_zero tl f j hf (List.nodup_cons.mp hnd).1
      have hle := List.count_le_length j (f j)
      omega
    · have hz : (f j).count i = 0 := by
        rw [List.count_eq_zero]
        intro hmem
        exact hji (hf j i hmem).symm
      omega

/-- A non-degenerate triangle occurs at most once in any edge's incidence
list. -/
theorem count_incident_le_one (tris : List IndexedTriangle) (e : Edge) (i : Nat)
    (hnd : ∀ t ∈ tris, t.isDegenerate = false) :
    (incidentTriangles tris e).count i ≤ 1 := by
  rw [incidentTriangles]
  have hf : ∀ j, ∀ x ∈ ([0, 1, 2].filterMap fun k =>
      if (tris.getD j default).edge k = e then some j else none), x = j := by
    intro j x hx
    obtain ⟨k, _, hcond⟩ := List.mem_filterMap.mp hx
    split at hcond
    · cases hcond; rfl
    · cases hcond
  by_cases hi : i < tris.length
  · have hb := count_flatMap_le (List.range tris.length)
      (fun j => [0, 1, 2].filterMap fun k =>
        if (tris.getD j default).edge k = e then some j else none) i hf
      (List.nodup_range _)
    refine le_trans hb ?_
    have hndt : (tris.getD i default).isDegenerate = false := by
      rw [List.getD_eq_getElem tris default hi]
      exact hnd _ (List.getElem_mem hi)
    obtain ⟨h01, h12, h02⟩ := edges_distinct _ hndt
    by_cases c0 : (tris.getD i default).edge 0 = e <;>
      by_cases c1 : (tris.getD i default).edge 1 = e <;>
      by_cases c2 : (tris.getD i default).edge 2 = e
    · exact absurd (c0.trans c1.symm) h01
    · exact absurd (c0.trans c1.symm) h01
    · exact absurd (c0.trans c2.symm) h02
    · simp only [List.filterMap_cons, List.filterMap_nil, if_pos c0, if_neg c1, if_neg c2]
      simp
    · exact absurd (c1.trans c2.symm) h12
    · simp only [List.filterMap_cons, List.filterMap_nil, if_neg c0, if_pos c1, if_neg c2]
      simp
    · simp only [List.filterMap_cons, List.filterMap_nil, if_neg c0, if_neg c1, if_pos c2]
      simp
    · simp only [List.filterMap_cons, List.filterMap_nil, if_neg c0, if_neg c1, if_neg c2]
      simp
  · have hz := count_flatMap_zero (List.range tris.length)
      (fun j => [0, 1, 2].filterMap fun k =>
        if (tris.getD j default).edge k = e then some j else none) i hf
      (by simpa using hi)
    omega

/-- An out-of-range index never occurs in an incidence list. -/
theorem count_incident_zero (tris : List IndexedTriangle) (e : Edge) (i : Nat)
    (hi : ¬ i < tris.length) :
    (incidentTriangles tris e).count i = 0 := by
  rw [incidentTriangles]
  refine count_flatMap_zero (List.range tris.length) _ i ?_ (by simpa using hi)
  intro j x hx
  obtain ⟨k, _, hcond⟩ := List.mem_filterMap.mp hx
  split at hcond
  · cases hcond; rfl
  · cases hcond

/-- Over a duplicate-free list, an indicator of a single element sums to at
most one. -/
theorem sum_indicator_le_one (l : List Edge) (hnd : l.Nodup) (x : Edge) :
    (l.map fun e => if e = x then (1 : Nat) else 0).sum ≤ 1 := by
  induction l with
  | nil => simp
  | cons e tl ih =>
    rw [List.map_cons, List.sum_cons]
    by_cases he : e = x
    · subst he
      have hz : (tl.map fun e2 => if e2 = e then (1 : Nat) else 0).sum = 0 := by
        rw [List.sum_eq_zero]
        intro y hy
        obtain ⟨e2, he2, hval⟩ := List.mem_map.mp hy
        have hne : e2 ≠ e := by
          intro hc
          subst hc
          exact (List.nodup_cons.mp hnd).1 he2
        rw [if_neg hne] at hval
        exact hval.symm
      simp [hz]
    · rw [if_neg he]
      simpa using ih (List.Nodup.of_cons hnd)

/-- On non-degenerate triangles every flag bit receives at most one marking:
only the triangle's own edge at that position can target it, each key occurs
once, and the triangle occurs at most once in that edge's incidence list. -/
theorem markCount_le_one (act : Edge → Bool) (tris : List IndexedTriangle) (i pos : Nat)
    (hnd : ∀ t ∈ tris, t.isDegenerate = false) :
    markCount act tris i pos ≤ 1 := by
  rw [markCount]
  by_cases hi : i < tris.length
  · have hndt : (tris.getD i default).isDegenerate = false := by
      rw [List.getD_eq_getElem tris default hi]
      exact hnd _ (List.getElem_mem hi)
    have hpere : ∀ e ∈ edgeKeys tris,
        (if act e && (e.getIndexInTriangle (tris.getD i default) == pos) then
            (incidentTriangles tris e).count i
          else 0)
          ≤ if e = (tris.getD i default).edge pos then (1 : Nat) else 0 := by
      intro e _
      split
      · rename_i hcnd
        by_cases hcz : (incidentTriangles tris e).count i = 0
        · simp [hcz]
        · have hmem : i ∈ incidentTriangles tris e := by
            rw [← List.count_pos_iff]
            omega
          obtain ⟨_, k, hk3, hk⟩ := (mem_incidentTriangles tris e i).mp hmem
          have hposk : e.getIndexInTriangle (tris.getD i default) = k := by
            rw [← hk]
            exact getIndexInTriangle_edge _ hndt k hk3
          have hkp : k = pos := by
            simp only [Bool.and_eq_true, beq_iff_eq] at hcnd
            omega
          subst hkp
          rw [if_pos hk.symm]
          exact count_incident_le_one tris e i hnd
      · split <;> omega
    calc ((edgeKeys tris).map fun e =>
          if act e && (e.getIndexInTriangle (tris.getD i default) == pos) then
            (incidentTriangles tris e).count i
          else 0).sum
        ≤ ((edgeKeys tris).map fun e =>
            if e = (tris.getD i default).edge pos then (1 : Nat) else 0).sum :=
          List.sum_le_sum hpere
      _ ≤ 1 := sum_indicator_le_one (edgeKeys tris) (List.nodup_dedup _) _
  · have hz : ∀ e ∈ edgeKeys tris,
        (if act e && (e.getIndexInTriangle (tris.getD i default) == pos) then
            (incidentTriangles tris e).count i
          else 0) = 0 := by
      intro e _
      split
      · exact count_incident_zero tris e i hi
      · rfl
    rw [List.sum_eq_zero]
    · omega
    · intro y hy
      obtain ⟨e, he, hval⟩ := List.mem_map.mp hy
      rw [← hval]
      exact hz e he

/-- General form of the assertion safety: with non-degenerate triangles and
clean active-edge fields, no bit-marking of `FindActiveEdges` ever finds its
bit already set, whatever the per-edge activity decisions are. -/
theorem activeEdgeAssertFires_false (act : Edge → Bool) (tris : List IndexedTriangle)
    (hnd : ∀ t ∈ tris, t.isDegenerate = false)
    (hfl : ∀ t ∈ tris, t.mMaterialIndex < 2 ^ FLAGS_ACTIVE_EGDE_SHIFT) :
    activeEdgeAssertFires act tris = false := by
  rw [activeEdgeAssertFires, List.any_eq_false]
  intro i hi
  rw [Bool.not_eq_true, List.any_eq_false]
  intro pos _
  rw [Bool.not_eq_true]
  have hilen : i < tris.length := List.mem_range.mp hi
  have htb : (tris.getD i default).mMaterialIndex.testBit (pos + FLAGS_ACTIVE_EGDE_SHIFT)
      = false := by
    apply Nat.testBit_lt_two_pow
    have hflt : (tris.getD i default).mMaterialIndex < 2 ^ FLAGS_ACTIVE_EGDE_SHIFT := by
      rw [List.getD_eq_getElem tris default hilen]
      exact hfl _ (List.getElem_mem hilen)
    calc (tris.getD i default).mMaterialIndex < 2 ^ FLAGS_ACTIVE_EGDE_SHIFT := hflt
      _ ≤ 2 ^ (pos + FLAGS_ACTIVE_EGDE_SHIFT) :=
        Nat.pow_le_pow_right (by norm_num) (by omega)
  have hmc := markCount_le_one act tris i pos hnd
  rw [htb]
  simp only [Bool.false_and, Bool.false_or, decide_eq_false_iff_not]
  omega

/-- C9 (amended): during `FindActiveEdges` on a sanitized triangle list whose
flag words carry no active-edge bits (as the constructor's validation
guarantees), no bit is ever found already set, so the marking assertion
never fires. -/
theorem findActiveEdges_assert_on_sanitized (isEA : Vec3 → Vec3 → Vec3 → Bool)
    (ccwN : Vec3 → Vec3 → Vec3 → Vec3) (verts : List Vec3) (l : List IndexedTriangle)
    (hfl : ∀ t ∈ sanitize l, t.mMaterialIndex < 2 ^ FLAGS_ACTIVE_EGDE_SHIFT) :
    activeEdgeAssertFires (edgeActive isEA ccwN verts (sanitize l)) (sanitize l) = false := by
  refine activeEdgeAssertFires_false _ _ ?_ hfl
  intro t ht
  exact sanitizeAux_nondegenerate l.reverse [] t (by simpa [sanitize] using ht)

theorem findActiveEdges_assert_on_sanitized_witness :
    (∀ t ∈ sanitize [⟨0, 1, 2, 3⟩], t.mMaterialIndex < 2 ^ FLAGS_ACTIVE_EGDE_SHIFT) ∧
    activeEdgeAssertFires
      (edgeActive (fun _ _ _ => true) (fun _ _ _ => ((0 : ℚ), (0 : ℚ), (0 : ℚ))) []
        (sanitize [⟨0, 1, 2, 3⟩]))
      (sanitize [⟨0, 1, 2, 3⟩]) = false :=
  ⟨by decide,
    findActiveEdges_assert_on_sanitized (fun _ _ _ => true)
      (fun _ _ _ => ((0 : ℚ), (0 : ℚ), (0 : ℚ))) [] [⟨0, 1, 2, 3⟩] (by decide)⟩

/-- C9 counterexample to the claim as stated: the one-triangle list below is
sanitized (the sanitizer keeps it unchanged), yet its flag word already
carries the bit at `FLAGS_ACTIVE_EGDE_SHIFT`; edge `(0,1)` is a boundary
edge, so the marking targets that very bit and the assertion fires. -/
theorem activeEdgeAssert_fires_on_preset_flags :
    sanitize [⟨0, 1, 2, 32⟩] = [⟨0, 1, 2, 32⟩] ∧
    activeEdgeAssertFires
      (edgeActive (fun _ _ _ => false) (fun _ _ _ => ((0 : ℚ), (0 : ℚ), (0 : ℚ))) []
        (sanitize [⟨0, 1, 2, 32⟩]))
      (sanitize [⟨0, 1, 2, 32⟩]) = true := by
  decide

/-! ### The encoded-tree walker (shared by C4, C6, C7, C8)

Modelled from the spec: the node codec's packed quad-tree and its
`WalkTree` live outside this repository snapshot.  The logical tree is a
node/leaf tree whose inner nodes carry per-child bounding boxes and whose
leaves carry a triangle block (block id plus up to `MaxTrianglesPerLeaf`
triangles).  The walker is the explicit-stack depth-first traversal of
§4.5: `ShouldAbort` is tested before each node pop; `VisitNodes` culls,
orders and annotates the children to push; `ShouldVisitNode` re-checks a
pushed child against its stored metric at pop time; `VisitTriangles`
processes a leaf, and when it raises the abort flag the leaf is *not*
consumed (it stays on the stack so that a resumed walk revisits it, as
`GetTrianglesNext` requires). -/

/-- Modelled from the spec: the logical shape of the encoded tree — inner
nodes hold children with their bounding boxes, leaves hold a triangle block
(dense block id and triangle list). -/
inductive MTree (Box Tri : Type) : Type where
  | leaf (blockId : Nat) (tris : List Tri) : MTree Box Tri
  | node (children : List (Box × MTree Box Tri)) : MTree Box Tri

mutual
/-- Node count plus triangle count, the termination measure of the walk. -/
def MTree.size {Box Tri : Type} : MTree Box Tri → Nat
  | .leaf _ tris => 1 + tris.length
  | .node cs => 1 + MTree.sizeChildren cs
def MTree.sizeChildren {Box Tri : Type} : List (Box × MTree Box Tri) → Nat
  | [] => 0
  | (_, t) :: rest => MTree.size t + MTree.sizeChildren rest
end

mutual
/-- All triangles of a tree, each tagged with its leaf's block id and its
index within the leaf block. -/
def MTree.trisB {Box Tri : Type} : MTree Box Tri → List (Nat × Nat × Tri)
  | .leaf b ts => ts.enum.map fun it => (b, it.1, it.2)
  | .node cs => MTree.trisBChildren cs
def MTree.trisBChildren {Box Tri : Type} : List (Box × MTree Box Tri) → List (Nat × Nat × Tri)
  | [] => []
  | (_, c) :: rest => MTree.trisB c ++ MTree.trisBChildren rest
end

/-- Total size of the trees on a walker stack. -/
def entryWeight {Box Tri : Type} (stack : List (Option ℚ × MTree Box Tri)) : Nat :=
  (stack.map (fun e => e.2.size)).sum

/-- Total size of the subtrees of a child list. -/
def childWeight {Box Tri : Type} (cs : List (Box × MTree Box Tri)) : Nat :=
  (cs.map (fun e => e.2.size)).sum

/-- All triangles reachable from a walker stack. -/
def stackTrisB {Box Tri : Type} (stack : List (Option ℚ × MTree Box Tri)) :
    List (Nat × Nat × Tri) :=
  stack.flatMap fun e => e.2.trisB

theorem sizeChildren_eq_childWeight {Box Tri : Type} (cs : List (Box × MTree Box Tri)) :
    MTree.sizeChildren cs = childWeight cs := by
  induction cs with
  | nil => simp [MTree.sizeChildren, childWeight]
  | cons c rest ih => cases c; simp [MTree.sizeChildren, childWeight, ih]

theorem size_pos {Box Tri : Type} (t : MTree Box Tri) : 0 < t.size := by
  cases t <;> simp [MTree.size]

/-- Modelled from the spec: the visitor contract of the tree walker
(§4.5).  `visitNodes` returns the children to push, each annotated with the
metric that `shouldVisit` later re-checks at pop time (`none` marks the
root, which is never re-checked).  The weight field records that a visitor
only pushes (a permutation of a subset of) the node's own children, which
bounds the traversal. -/
structure MVisitor (Box Tri σ : Type) where
  shouldAbort : σ → Bool
  shouldVisit : σ → ℚ → Bool
  visitNodes : σ → List (Box × MTree Box Tri) → List (Option ℚ × MTree Box Tri)
  visitLeaf : σ → Nat → List Tri → σ
  visitNodes_weight : ∀ s cs, entryWeight (visitNodes s cs) ≤ childWeight cs

/-- Modelled from the spec: the walker loop.  Before popping an entry the
abort flag is consulted; a popped entry whose stored metric fails
`shouldVisit` is dropped; a node is replaced by the children `visitNodes`
selects; a leaf is handed to `visitLeaf`, and if that visit raises the
abort flag the leaf stays on the stack (it was not consumed) — otherwise
the walk continues.  The returned stack is the resume point. -/
def walkRun {Box Tri σ : Type} (V : MVisitor Box Tri σ) :
    List (Option ℚ × MTree Box Tri) → σ → List (Option ℚ × MTree Box Tri) × σ
  | [], s => ([], s)
  | (d, t) :: rest, s =>
    if V.shouldAbort s then ((d, t) :: rest, s)
    else if d.elim true (fun q => V.shouldVisit s q) then
      match t with
      | .node cs => walkRun V (V.visitNodes s cs ++ rest) s
      | .leaf b tris =>
        let s' := V.visitLeaf s b tris
        if V.shouldAbort s' then ((d, MTree.leaf b tris) :: rest, s')
        else walkRun V rest s'
    else walkRun V rest s
termination_by stack _ => entryWeight stack
decreasing_by
  · simp only [entryWeight, List.map_append, List.sum_append, List.map_cons, List.sum_cons]
    have h1 := V.visitNodes_weight s cs
    have h2 := sizeChildren_eq_childWeight cs
    simp only [entryWeight, childWeight] at h1 h2
    have h3 : MTree.size (MTree.node cs) = 1 + MTree.sizeChildren cs := by simp [MTree.size]
    omega
  · simp only [entryWeight, List.map_cons, List.sum_cons]
    have := @size_pos Box Tri (MTree.leaf b tris)
    omega
  · simp only [entryWeight, List.map_cons, List.sum_cons]
    have := @size_pos Box Tri t
    omega

theorem walkRun_nil {Box Tri σ : Type} (V : MVisitor Box Tri σ) (s : σ) :
    walkRun V [] s = ([], s) := by
  rw [walkRun.eq_def]

theorem walkRun_abort {Box Tri σ : Type} (V : MVisitor Box Tri σ) (d : Option ℚ)
    (t : MTree Box Tri) (rest : List (Option ℚ × MTree Box Tri)) (s : σ)
    (h : V.shouldAbort s = true) :
    walkRun V ((d, t) :: rest) s = ((d, t) :: rest, s) := by
  rw [walkRun.eq_def]
  simp only [h, if_pos]

theorem walkRun_skip {Box Tri σ : Type} (V : MVisitor Box Tri σ) (d : Option ℚ)
    (t : MTree Box Tri) (rest : List (Option ℚ × MTree Box Tri)) (s : σ)
    (h : ¬ V.shouldAbort s = true) (hv : ¬ d.elim true (fun q => V.shouldVisit s q) = true) :
    walkRun V ((d, t) :: rest) s = walkRun V rest s := by
  rw [walkRun.eq_def]
  simp only [if_neg h, if_neg hv]

theorem walkRun_node {Box Tri σ : Type} (V : MVisitor Box Tri σ) (d : Option ℚ)
    (cs : List (Box × MTree Box Tri)) (rest : List (Option ℚ × MTree Box Tri)) (s : σ)
    (h : ¬ V.shouldAbort s = true) (hv : d.elim true (fun q => V.shouldVisit s q) = true) :
    walkRun V ((d, MTree.node cs) :: rest) s = walkRun V (V.visitNodes s cs ++ rest) s := by
  rw [walkRun.eq_def]
  simp only [if_neg h, if_pos hv]

theorem walkRun_leaf_abort {Box Tri σ : Type} (V : MVisitor Box Tri σ) (d : Option ℚ)
    (b : Nat) (tris : List Tri) (rest : List (Option ℚ × MTree Box Tri)) (s : σ)
    (h : ¬ V.shouldAbort s = true) (hv : d.elim true (fun q => V.shouldVisit s q) = true)
    (h2 : V.shouldAbort (V.visitLeaf s b tris) = true) :
    walkRun V ((d, MTree.leaf b tris) :: rest) s
      = ((d, MTree.leaf b tris) :: rest, V.visitLeaf s b tris) := by
  rw [walkRun.eq_def]
  simp only [if_neg h, if_pos hv, h2, if_pos]

theorem walkRun_leaf_cont {Box Tri σ : Type} (V : MVisitor Box Tri σ) (d : Option ℚ)
    (b : Nat) (tris : List Tri) (rest : List (Option ℚ × MTree Box Tri)) (s : σ)
    (h : ¬ V.shouldAbort s = true) (hv : d.elim true (fun q => V.shouldVisit s q) = true)
    (h2 : ¬ V.shouldAbort (V.visitLeaf s b tris) = true) :
    walkRun V ((d, MTree.leaf b tris) :: rest) s = walkRun V rest (V.visitLeaf s b tris) := by
  rw [walkRun.eq_def]
  simp only [if_neg h, if_pos hv, if_neg h2]

/-- State of the nearest-hit `CastRay` visitor: the in-out `RayCastResult`
fields it mutates (`mFraction`, `mSubShapeID2`) plus `mReturnValue`. -/
structure RayCastState where
  mFraction : ℚ
  mSubShapeID2 : SubShapeID
  mReturnValue : Bool
deriving DecidableEq

/-- One step of the triangle codec's `TestRay` scan: keep the strictly
closer fraction together with its triangle index. -/
def testRayStep {Tri : Type} (rayTriangle : Tri → ℚ) (best : ℚ × Nat) (it : Nat × Tri) :
    ℚ × Nat :=
  if rayTriangle it.2 < best.1 then (rayTriangle it.2, it.1) else best

/-- Modelled from the spec: `TriangleCodec::TestRay` — the closest hit among
a leaf's triangles, no closer than the incoming bound (ties keep the
earlier triangle; misses report the bound itself). -/
def testRayLeaf {Tri : Type} (rayTriangle : Tri → ℚ) (tris : List Tri) (bound : ℚ) : ℚ × Nat :=
  tris.enum.foldl (testRayStep rayTriangle) (bound, 0)

theorem testRayFold_spec {Tri : Type} (rayTriangle : Tri → ℚ) (L : List (Nat × Tri))
    (init : ℚ × Nat) :
    (L.foldl (testRayStep rayTriangle) init).1 ≤ init.1 ∧
      (∀ x ∈ L, (L.foldl (testRayStep rayTriangle) init).1 ≤ rayTriangle x.2) ∧
      ((L.foldl (testRayStep rayTriangle) init).1 < init.1 →
        ∃ x ∈ L, rayTriangle x.2 = (L.foldl (testRayStep rayTriangle) init).1 ∧
          (L.foldl (testRayStep rayTriangle) init).2 = x.1) ∧
      (¬ (L.foldl (testRayStep rayTriangle) init).1 < init.1 →
        L.foldl (testRayStep rayTriangle) init = init) := by
  induction L generalizing init with
  | nil => simp
  | cons it L ih =>
    simp only [List.foldl_cons]
    by_cases hlt : rayTriangle it.2 < init.1
    · rw [testRayStep, if_pos hlt]
      obtain ⟨ih1, ih2, ih3, ih4⟩ := ih (rayTriangle it.2, it.1)
      refine ⟨le_trans ih1 (le_of_lt hlt), ?_, ?_, ?_⟩
      · intro x hx
        rcases List.mem_cons.mp hx with h | h
        · subst h; exact ih1
        · exact ih2 x h
      · intro _
        by_cases hlt2 :
            (L.foldl (testRayStep rayTriangle) (rayTriangle it.2, it.1)).1 < rayTriangle it.2
        · obtain ⟨x, hx, hrx, hix⟩ := ih3 hlt2
          exact ⟨x, List.mem_cons_of_mem _ hx, hrx, hix⟩
        · have hres := ih4 hlt2
          refine ⟨it, List.mem_cons_self _ _, ?_, ?_⟩
          · rw [hres]
          · rw [hres]
      · intro hge
        exact absurd (lt_of_le_of_lt ih1 hlt) hge
    · rw [testRayStep, if_neg hlt]
      obtain ⟨ih1, ih2, ih3, ih4⟩ := ih init
      refine ⟨ih1, ?_, ?_, ih4⟩
      · intro x hx
        rcases List.mem_cons.mp hx with h | h
        · subst h
          exact le_trans ih1 (not_lt.mp hlt)
        · exact ih2 x h
      · intro hl
        obtain ⟨x, hx, hrx, hix⟩ := ih3 hl
        exact ⟨x, List.mem_cons_of_mem _ hx, hrx, hix⟩

/-- Decidability of the by-distance ordering used to sort child lanes. -/
instance sortRelDecidable {Box Tri : Type} :
    DecidableRel (fun a b : (ℚ × MTree Box Tri) => a.1 ≤ b.1) :=
  fun a b => inferInstanceAs (Decidable (a.1 ≤ b.1))

mutual
/-- Bounding-volume soundness of a tree for a given query: every child box's
ray-entry distance lower-bounds the ray fraction of every triangle beneath
it.  This is the geometric contract the encoded AABB tree provides and the
pruning in `VisitNodes` / `ShouldVisitNode` relies on. -/
def MTree.soundB {Box Tri : Type} (rayAABox : Box → ℚ) (rayTriangle : Tri → ℚ) :
    MTree Box Tri → Bool
  | .leaf _ _ => true
  | .node cs => MTree.soundChildren rayAABox rayTriangle cs
def MTree.soundChildren {Box Tri : Type} (rayAABox : Box → ℚ) (rayTriangle : Tri → ℚ) :
    List (Box × MTree Box Tri) → Bool
  | [] => true
  | (b, c) :: rest =>
    (c.trisB.all fun x => decide (rayAABox b ≤ rayTriangle x.2.2))
      && c.soundB rayAABox rayTriangle && MTree.soundChildren rayAABox rayTriangle rest
end

theorem soundChildren_mem {Box Tri : Type} (rayAABox : Box → ℚ) (rayTriangle : Tri → ℚ)
    (cs : List (Box × MTree Box Tri)) (h : MTree.soundChildren rayAABox rayTriangle cs = true) :
    ∀ bc ∈ cs, (∀ x ∈ (bc.2).trisB, rayAABox bc.1 ≤ rayTriangle x.2.2) ∧
      (bc.2).soundB rayAABox rayTriangle = true := by
  induction cs with
  | nil => simp
  | cons c rest ih =>
    obtain ⟨b0, c0⟩ := c
    rw [MTree.soundChildren] at h
    simp only [Bool.and_eq_true] at h
    obtain ⟨⟨hall, hsnd⟩, hrest⟩ := h
    intro bc hbc
    rcases List.mem_cons.mp hbc with hh | hh
    · subst hh
      refine ⟨?_, hsnd⟩
      intro x hx
      have := List.all_eq_true.mp hall x hx
      simpa using this
    · exact ih hrest bc hh

theorem mem_trisBChildren {Box Tri : Type} (cs : List (Box × MTree Box Tri))
    (x : Nat × Nat × Tri) :
    x ∈ MTree.trisBChildren cs ↔ ∃ bc ∈ cs, x ∈ (bc.2).trisB := by
  induction cs with
  | nil => simp [MTree.trisBChildren]
  | cons c rest ih =>
    obtain ⟨b0, c0⟩ := c
    rw [MTree.trisBChildren]
    simp only [List.mem_append, ih, List.mem_cons]
    constructor
    · rintro (h | ⟨bc, hbc, hx⟩)
      · exact ⟨(b0, c0), Or.inl rfl, h⟩
      · exact ⟨bc, Or.inr hbc, hx⟩
    · rintro ⟨bc, hbc | hbc, hx⟩
      · subst hbc; exact Or.inl hx
      · exact Or.inr ⟨bc, hbc, hx⟩

theorem mem_stackTrisB {Box Tri : Type} (stack : List (Option ℚ × MTree Box Tri))
    (x : Nat × Nat × Tri) :
    x ∈ stackTrisB stack ↔ ∃ e ∈ stack, x ∈ (e.2).trisB := by
  simp [stackTrisB, List.mem_flatMap]

/-- The visitor of the nearest-hit `MeshShape::CastRay`: aborts once the
fraction reaches zero, culls children whose ray-AABB entry distance is not
below the current fraction and processes the survivors closest first
(`Vec4::sSort4Reverse` plus LIFO order), and per leaf asks the codec for
the closest triangle hit, updating fraction, sub-shape id (block id then
triangle index pushed onto the creator) and return value when it is
strictly closer. -/
def castRayVisitor {Box Tri : Type} (rayAABox : Box → ℚ) (rayTriangle : Tri → ℚ)
    (idc : SubShapeIDCreator) (blockIdBits numTriangleBits : Nat) :
    MVisitor Box Tri RayCastState where
  shouldAbort s := decide (s.mFraction ≤ 0)
  shouldVisit s d := decide (d < s.mFraction)
  visitNodes s cs :=
    (List.insertionSort (fun a b => a.1 ≤ b.1)
      ((cs.map fun c => (rayAABox c.1, c.2)).filter fun c => decide (c.1 < s.mFraction))).map
      fun c => (some c.1, c.2)
  visitLeaf s b tris :=
    let res := testRayLeaf rayTriangle tris s.mFraction
    if res.1 < s.mFraction then
      { mFraction := res.1,
        mSubShapeID2 := ((idc.pushID b blockIdBits).pushID res.2 numTriangleBits).getID,
        mReturnValue := true }
    else s
  visitNodes_weight := by
    intro s cs
    rw [entryWeight, childWeight]
    have hperm := List.perm_insertionSort (fun a b : (ℚ × MTree Box Tri) => a.1 ≤ b.1)
      ((cs.map fun c => (rayAABox c.1, c.2)).filter fun c => decide (c.1 < s.mFraction))
    have h1 : ((List.insertionSort (fun a b : (ℚ × MTree Box Tri) => a.1 ≤ b.1)
        ((cs.map fun c => (rayAABox c.1, c.2)).filter fun c => decide (c.1 < s.mFraction))).map
          fun c => ((some c.1 : Option ℚ), c.2)).map (fun e => e.2.size)
        = (List.insertionSort (fun a b : (ℚ × MTree Box Tri) => a.1 ≤ b.1)
        ((cs.map fun c => (rayAABox c.1, c.2)).filter fun c => decide (c.1 < s.mFraction))).map
          (fun e => e.2.size) := by
      rw [List.map_map]
      rfl
    rw [h1]
    have h2 := (hperm.map (fun e : (ℚ × MTree Box Tri) => e.2.size)).sum_eq
    rw [h2]
    have h3 : ((cs.map fun c => (rayAABox c.1, c.2)).filter
        fun c => decide (c.1 < s.mFraction)).Sublist (cs.map fun c => (rayAABox c.1, c.2)) :=
      List.filter_sublist _
    have h4 := List.Sublist.sum_le_sum (h3.map (fun e : (ℚ × MTree Box Tri) => e.2.size))
      (by intro a _; exact Nat.zero_le a)
    calc (((cs.map fun c => (rayAABox c.1, c.2)).filter
            fun c => decide (c.1 < s.mFraction)).map (fun e => e.2.size)).sum
        ≤ ((cs.map fun c => (rayAABox c.1, c.2)).map (fun e => e.2.size)).sum := h4
      _ = (cs.map fun e => e.2.size).sum := by rw [List.map_map]; rfl

theorem castRay_visitNodes_mem {Box Tri : Type} (rayAABox : Box → ℚ) (rayTriangle : Tri → ℚ)
    (idc : SubShapeIDCreator) (blockIdBits numTriangleBits : Nat) (s : RayCastState)
    (cs : List (Box × MTree Box Tri)) (x : Option ℚ × MTree Box Tri) :
    x ∈ (castRayVisitor rayAABox rayTriangle idc blockIdBits numTriangleBits).visitNodes s cs ↔
      ∃ bc ∈ cs, x = (some (rayAABox bc.1), bc.2) ∧ rayAABox bc.1 < s.mFraction := by
  simp only [castRayVisitor, List.mem_map, List.mem_insertionSort, List.mem_filter,
    decide_eq_true_eq]
  constructor
  · rintro ⟨c, ⟨⟨bc, hbc, hceq⟩, hlt⟩, hx⟩
    refine ⟨bc, hbc, ?_, ?_⟩
    · rw [← hx, ← hceq]
    · rw [← hceq] at hlt
      exact hlt
  · rintro ⟨bc, hbc, hx, hlt⟩
    exact ⟨(rayAABox bc.1, bc.2), ⟨⟨bc, hbc, rfl⟩, hlt⟩, hx.symm⟩

/-- Invariant of the nearest-ray walk stack: sound subtrees, stored metrics
that lower-bound their subtree's fractions, non-negative fractions. -/
def rayStackOK {Box Tri : Type} (rayAABox : Box → ℚ) (rayTriangle : Tri → ℚ)
    (stack : List (Option ℚ × MTree Box Tri)) : Prop :=
  ∀ e ∈ stack, (e.2).soundB rayAABox rayTriangle = true ∧
    (∀ q, e.1 = some q → ∀ x ∈ (e.2).trisB, q ≤ rayTriangle x.2.2) ∧
    (∀ x ∈ (e.2).trisB, 0 ≤ rayTriangle x.2.2)

/-- Walk invariant of the nearest-hit cast: the fraction never increases, it
ends up at or below every reachable triangle's fraction, and the state is
either untouched or holds the data of some strictly closer triangle. -/
theorem castRay_walk_inv {Box Tri : Type} (rayAABox : Box → ℚ) (rayTriangle : Tri → ℚ)
    (idc : SubShapeIDCreator) (blockIdBits numTriangleBits : Nat) :
    ∀ (stack : List (Option ℚ × MTree Box Tri)) (s : RayCastState),
      rayStackOK rayAABox rayTriangle stack →
      (walkRun (castRayVisitor rayAABox rayTriangle idc blockIdBits numTriangleBits)
          stack s).2.mFraction ≤ s.mFraction ∧
      (∀ x ∈ stackTrisB stack,
        (walkRun (castRayVisitor rayAABox rayTriangle idc blockIdBits numTriangleBits)
          stack s).2.mFraction ≤ rayTriangle x.2.2) ∧
      ((walkRun (castRayVisitor rayAABox rayTriangle idc blockIdBits numTriangleBits)
          stack s).2 = s ∨
        ((walkRun (castRayVisitor rayAABox rayTriangle idc blockIdBits numTriangleBits)
            stack s).2.mReturnValue = true ∧
          (walkRun (castRayVisitor rayAABox rayTriangle idc blockIdBits numTriangleBits)
            stack s).2.mFraction < s.mFraction ∧
          ∃ x ∈ stackTrisB stack,
            rayTriangle x.2.2 =
              (walkRun (castRayVisitor rayAABox rayTriangle idc blockIdBits numTriangleBits)
                stack s).2.mFraction ∧
            (walkRun (castRayVisitor rayAABox rayTriangle idc blockIdBits numTriangleBits)
                stack s).2.mSubShapeID2 =
              ((idc.pushID x.1 blockIdBits).pushID x.2.1 numTriangleBits).getID)) := by
  set V := castRayVisitor rayAABox rayTriangle idc blockIdBits numTriangleBits with hV
  intro stack s
  induction stack, s using walkRun.induct (V := V) with
  | case1 s =>
    intro _
    rw [walkRun_nil]
    refine ⟨le_refl _, ?_, Or.inl rfl⟩
    intro x hx
    simp [stackTrisB] at hx
  | case2 d t rest s habort =>
    intro hok
    rw [walkRun_abort V d t rest s habort]
    have hf : s.mFraction ≤ 0 := by
      have : decide (s.mFraction ≤ 0) = true := habort
      simpa using this
    refine ⟨le_refl _, ?_, Or.inl rfl⟩
    intro x hx
    obtain ⟨e, he, hxe⟩ := (mem_stackTrisB _ x).mp hx
    have hnn := (hok e he).2.2 x hxe
    exact le_trans hf hnn
  | case3 d rest s habort hvisit cs ih =>
    intro hok
    rw [walkRun_node V d cs rest s habort hvisit]
    have hheadok := hok (d, MTree.node cs) (List.mem_cons_self _ _)
    have hsound : MTree.soundChildren rayAABox rayTriangle cs = true := by
      have h5 := hheadok.1
      rw [MTree.soundB] at h5
      exact h5
    have hcsmem := soundChildren_mem rayAABox rayTriangle cs hsound
    have hnewok : rayStackOK rayAABox rayTriangle (V.visitNodes s cs ++ rest) := by
      intro e he
      rcases List.mem_append.mp he with he2 | he2
      · obtain ⟨bc, hbc, heq, hlt⟩ :=
          (castRay_visitNodes_mem rayAABox rayTriangle idc blockIdBits numTriangleBits
            s cs e).mp he2
        subst heq
        refine ⟨(hcsmem bc hbc).2, ?_, ?_⟩
        · intro q hq x hx
          cases hq
          exact (hcsmem bc hbc).1 x hx
        · intro x hx
          refine hheadok.2.2 x ?_
          have h6 : (MTree.node cs).trisB = MTree.trisBChildren cs := by rw [MTree.trisB]
          rw [h6]
          exact (mem_trisBChildren cs x).mpr ⟨bc, hbc, hx⟩
      · exact hok e (List.mem_cons_of_mem _ he2)
    obtain ⟨ih1, ih2, ih3⟩ := ih hnewok
    have hlift : ∀ x ∈ stackTrisB (V.visitNodes s cs ++ rest),
        x ∈ stackTrisB ((d, MTree.node cs) :: rest) := by
      intro x hx
      obtain ⟨e, he, hxe⟩ := (mem_stackTrisB _ x).mp hx
      rcases List.mem_append.mp he with he2 | he2
      · obtain ⟨bc, hbc, heq, hlt⟩ :=
          (castRay_visitNodes_mem rayAABox rayTriangle idc blockIdBits numTriangleBits
            s cs e).mp he2
        subst heq
        refine (mem_stackTrisB _ x).mpr ⟨(d, MTree.node cs), List.mem_cons_self _ _, ?_⟩
        have h6 : (MTree.node cs).trisB = MTree.trisBChildren cs := by rw [MTree.trisB]
        rw [h6]
        exact (mem_trisBChildren cs x).mpr ⟨bc, hbc, hxe⟩
      · exact (mem_stackTrisB _ x).mpr ⟨e, List.mem_cons_of_mem _ he2, hxe⟩
    refine ⟨ih1, ?_, ?_⟩
    · intro x hx
      obtain ⟨e, he, hxe⟩ := (mem_stackTrisB _ x).mp hx
      rcases List.mem_cons.mp he with he2 | he2
      · subst he2
        have h6 : (MTree.node cs).trisB = MTree.trisBChildren cs := by rw [MTree.trisB]
        rw [h6] at hxe
        obtain ⟨bc, hbc, hxc⟩ := (mem_trisBChildren cs x).mp hxe
        by_cases hkept : rayAABox bc.1 < s.mFraction
        · refine ih2 x ?_
          refine (mem_stackTrisB _ x).mpr
            ⟨(some (rayAABox bc.1), bc.2), List.mem_append_left _ ?_, hxc⟩
          exact (castRay_visitNodes_mem rayAABox rayTriangle idc blockIdBits numTriangleBits
            s cs _).mpr ⟨bc, hbc, rfl, hkept⟩
        · have hb1 : rayAABox bc.1 ≤ rayTriangle x.2.2 := (hcsmem bc hbc).1 x hxc
          have hb2 : s.mFraction ≤ rayAABox bc.1 := not_lt.mp hkept
          exact le_trans ih1 (le_trans hb2 hb1)
      · exact ih2 x ((mem_stackTrisB _ x).mpr ⟨e, List.mem_append_right _ he2, hxe⟩)
    · rcases ih3 with h | ⟨hret, hlt, x, hx, hrx, hid⟩
      · exact Or.inl h
      · exact Or.inr ⟨hret, hlt, x, hlift x hx, hrx, hid⟩
  | case4 d rest s habort hvisit b tris s2 hab2 =>
    intro hok
    rw [walkRun_leaf_abort V d b tris rest s habort hvisit hab2]
    have hf0 : (V.visitLeaf s b tris).mFraction ≤ 0 := by
      have h5 : decide ((V.visitLeaf s b tris).mFraction ≤ 0) = true := hab2
      simpa using h5
    have hle : (V.visitLeaf s b tris).mFraction ≤ s.mFraction := by
      show ((castRayVisitor rayAABox rayTriangle idc blockIdBits
        numTriangleBits).visitLeaf s b tris).mFraction ≤ s.mFraction
      rw [castRayVisitor]
      simp only []
      split
      · rename_i hsp
        exact le_of_lt hsp
      · exact le_refl _
    refine ⟨hle, ?_, ?_⟩
    · intro x hx
      obtain ⟨e, he, hxe⟩ := (mem_stackTrisB _ x).mp hx
      exact le_trans hf0 ((hok e he).2.2 x hxe)
    · show (V.visitLeaf s b tris) = s ∨ _
      have hspec := testRayFold_spec rayTriangle tris.enum (s.mFraction, 0)
      by_cases hup : (testRayLeaf rayTriangle tris s.mFraction).1 < s.mFraction
      · refine Or.inr ⟨?_, ?_, ?_⟩
        · show ((castRayVisitor rayAABox rayTriangle idc blockIdBits
            numTriangleBits).visitLeaf s b tris).mReturnValue = true
          rw [castRayVisitor]
          simp only []
          rw [if_pos hup]
        · show ((castRayVisitor rayAABox rayTriangle idc blockIdBits
            numTriangleBits).visitLeaf s b tris).mFraction < s.mFraction
          rw [castRayVisitor]
          simp only []
          rw [if_pos hup]
          exact hup
        · obtain ⟨it, hit, hrit, hidx⟩ := hspec.2.2.1 hup
          refine ⟨(b, it.1, it.2), ?_, ?_, ?_⟩
          · refine (mem_stackTrisB _ _).mpr
              ⟨(d, MTree.leaf b tris), List.mem_cons_self _ _, ?_⟩
            rw [MTree.trisB]
            exact List.mem_map.mpr ⟨it, hit, rfl⟩
          · show rayTriangle it.2 = ((castRayVisitor rayAABox rayTriangle idc blockIdBits
              numTriangleBits).visitLeaf s b tris).mFraction
            rw [castRayVisitor]
            simp only []
            rw [if_pos hup]
            exact hrit
          · show ((castRayVisitor rayAABox rayTriangle idc blockIdBits
              numTriangleBits).visitLeaf s b tris).mSubShapeID2 = _
            rw [castRayVisitor]
            simp only []
            rw [if_pos hup]
            simp only []
            have hidx2 : (testRayLeaf rayTriangle tris s.mFraction).2 = it.1 := hidx
            rw [hidx2]
      · refine Or.inl ?_
        show ((castRayVisitor rayAABox rayTriangle idc blockIdBits
          numTriangleBits).visitLeaf s b tris) = s
        rw [castRayVisitor]
        simp only []
        rw [if_neg hup]
  | case5 d rest s habort hvisit b tris s2 hab2 ih =>
    intro hok
    rw [walkRun_leaf_cont V d b tris rest s habort hvisit hab2]
    have hrestok : rayStackOK rayAABox rayTriangle rest := fun e he =>
      hok e (List.mem_cons_of_mem _ he)
    obtain ⟨ih1, ih2, ih3⟩ := ih hrestok
    have hspec := testRayFold_spec rayTriangle tris.enum (s.mFraction, 0)
    have hle : (V.visitLeaf s b tris).mFraction ≤ s.mFraction := by
      show ((castRayVisitor rayAABox rayTriangle idc blockIdBits
        numTriangleBits).visitLeaf s b tris).mFraction ≤ s.mFraction
      rw [castRayVisitor]
      simp only []
      split
      · rename_i hsp
        exact le_of_lt hsp
      · exact le_refl _
    have hleaf : ∀ x ∈ (MTree.leaf b tris : MTree Box Tri).trisB,
        (V.visitLeaf s b tris).mFraction ≤ rayTriangle x.2.2 := by
      intro x hx
      rw [MTree.trisB] at hx
      obtain ⟨it, hit, hxeq⟩ := List.mem_map.mp hx
      subst hxeq
      show ((castRayVisitor rayAABox rayTriangle idc blockIdBits
        numTriangleBits).visitLeaf s b tris).mFraction ≤ rayTriangle it.2
      rw [castRayVisitor]
      simp only []
      by_cases hup : (testRayLeaf rayTriangle tris s.mFraction).1 < s.mFraction
      · rw [if_pos hup]
        exact hspec.2.1 it hit
      · rw [if_neg hup]
        have heq : (testRayLeaf rayTriangle tris s.mFraction).1 = s.mFraction := by
          have h7 := hspec.1
          rw [testRayLeaf] at hup ⊢
          exact le_antisymm h7 (not_lt.mp hup)
        calc s.mFraction = (testRayLeaf rayTriangle tris s.mFraction).1 := heq.symm
          _ ≤ rayTriangle it.2 := by
            rw [testRayLeaf]
            exact hspec.2.1 it hit
    refine ⟨le_trans ih1 hle, ?_, ?_⟩
    · intro x hx
      obtain ⟨e, he, hxe⟩ := (mem_stackTrisB _ x).mp hx
      rcases List.mem_cons.mp he with he2 | he2
      · subst he2
        exact le_trans ih1 (hleaf x hxe)
      · exact ih2 x ((mem_stackTrisB _ x).mpr ⟨e, he2, hxe⟩)
    · rcases ih3 with h | ⟨hret, hlt, x, hx, hrx, hid⟩
      · rw [h]
        by_cases hup : (testRayLeaf rayTriangle tris s.mFraction).1 < s.mFraction
        · refine Or.inr ⟨?_, ?_, ?_⟩
          · show ((castRayVisitor rayAABox rayTriangle idc blockIdBits
              numTriangleBits).visitLeaf s b tris).mReturnValue = true
            rw [castRayVisitor]
            simp only []
            rw [if_pos hup]
          · show ((castRayVisitor rayAABox rayTriangle idc blockIdBits
              numTriangleBits).visitLeaf s b tris).mFraction < s.mFraction
            rw [castRayVisitor]
            simp only []
            rw [if_pos hup]
            exact hup
          · obtain ⟨it, hit, hrit, hidx⟩ := hspec.2.2.1 hup
            refine ⟨(b, it.1, it.2), ?_, ?_, ?_⟩
            · refine (mem_stackTrisB _ _).mpr
                ⟨(d, MTree.leaf b tris), List.mem_cons_self _ _, ?_⟩
              rw [MTree.trisB]
              exact List.mem_map.mpr ⟨it, hit, rfl⟩
            · show rayTriangle it.2 = ((castRayVisitor rayAABox rayTriangle idc blockIdBits
                numTriangleBits).visitLeaf s b tris).mFraction
              rw [castRayVisitor]
              simp only []
              rw [if_pos hup]
              exact hrit
            · show ((castRayVisitor rayAABox rayTriangle idc blockIdBits
                numTriangleBits).visitLeaf s b tris).mSubShapeID2 = _
              rw [castRayVisitor]
              simp only []
              rw [if_pos hup]
              simp only []
              have hidx2 : (testRayLeaf rayTriangle tris s.mFraction).2 = it.1 := hidx
              rw [hidx2]
        · refine Or.inl ?_
          show ((castRayVisitor rayAABox rayTriangle idc blockIdBits
            numTriangleBits).visitLeaf s b tris) = s
          rw [castRayVisitor]
          simp only []
          rw [if_neg hup]
      · refine Or.inr ⟨hret, lt_of_lt_of_le hlt hle, x, ?_, hrx, hid⟩
        obtain ⟨e, he, hxe⟩ := (mem_stackTrisB _ x).mp hx
        exact (mem_stackTrisB _ x).mpr ⟨e, List.mem_cons_of_mem _ he, hxe⟩
  | case6 d t rest s habort hvisit ih =>
    intro hok
    rw [walkRun_skip V d t rest s habort hvisit]
    have hrestok : rayStackOK rayAABox rayTriangle rest := fun e he =>
      hok e (List.mem_cons_of_mem _ he)
    obtain ⟨ih1, ih2, ih3⟩ := ih hrestok
    have hdq : ∃ q, d = some q ∧ s.mFraction ≤ q := by
      cases d with
      | none => simp at hvisit
      | some q =>
        refine ⟨q, rfl, ?_⟩
        have h5 : ¬ ((castRayVisitor rayAABox rayTriangle idc blockIdBits
          numTriangleBits).shouldVisit s q) = true := hvisit
        rw [castRayVisitor] at h5
        simpa using h5
    refine ⟨ih1, ?_, ?_⟩
    · intro x hx
      obtain ⟨e, he, hxe⟩ := (mem_stackTrisB _ x).mp hx
      rcases List.mem_cons.mp he with he2 | he2
      · subst he2
        obtain ⟨q, hdq2, hqf⟩ := hdq
        have hbound := (hok (d, t) (List.mem_cons_self _ _)).2.1 q hdq2 x hxe
        exact le_trans ih1 (le_trans hqf hbound)
      · exact ih2 x ((mem_stackTrisB _ x).mpr ⟨e, he2, hxe⟩)
    · rcases ih3 with h | ⟨hret, hlt, x, hx, hrx, hid⟩
      · exact Or.inl h
      · refine Or.inr ⟨hret, hlt, x, ?_, hrx, hid⟩
        obtain ⟨e, he, hxe⟩ := (mem_stackTrisB _ x).mp hx
        exact (mem_stackTrisB _ x).mpr ⟨e, List.mem_cons_of_mem _ he, hxe⟩

/-- `MeshShape::CastRay` (nearest hit): walk the tree from the root with the
incoming hit as bound.  The query ray is folded into the abstract
`rayAABox` / `rayTriangle` solvers. -/
def castRay {Box Tri : Type} (rayAABox : Box → ℚ) (rayTriangle : Tri → ℚ)
    (idc : SubShapeIDCreator) (blockIdBits numTriangleBits : Nat)
    (tree : MTree Box Tri) (hitFraction : ℚ) (hitSubShapeID : SubShapeID) : RayCastState :=
  (walkRun (castRayVisitor rayAABox rayTriangle idc blockIdBits numTriangleBits)
    [(none, tree)] ⟨hitFraction, hitSubShapeID, false⟩).2

/-- C4: the nearest-hit cast returns true exactly when some triangle's
fraction is strictly below the incoming bound; on true the final fraction
is the minimum fraction over all triangles (attained by the reported
triangle) and the sub-shape id is the creator with that triangle's block id
and in-leaf index pushed; on false the hit is left unchanged. -/
theorem castRay_spec {Box Tri : Type} (rayAABox : Box → ℚ) (rayTriangle : Tri → ℚ)
    (idc : SubShapeIDCreator) (blockIdBits numTriangleBits : Nat)
    (tree : MTree Box Tri) (f0 : ℚ) (id0 : SubShapeID)
    (hsound : tree.soundB rayAABox rayTriangle = true)
    (hnn : ∀ x ∈ tree.trisB, 0 ≤ rayTriangle x.2.2) :
    ((castRay rayAABox rayTriangle idc blockIdBits numTriangleBits
        tree f0 id0).mReturnValue = true ↔
      ∃ x ∈ tree.trisB, rayTriangle x.2.2 < f0) ∧
    ((castRay rayAABox rayTriangle idc blockIdBits numTriangleBits
        tree f0 id0).mReturnValue = false →
      (castRay rayAABox rayTriangle idc blockIdBits numTriangleBits
        tree f0 id0).mFraction = f0 ∧
      (castRay rayAABox rayTriangle idc blockIdBits numTriangleBits
        tree f0 id0).mSubShapeID2 = id0) ∧
    ((castRay rayAABox rayTriangle idc blockIdBits numTriangleBits
        tree f0 id0).mReturnValue = true →
      (∀ x ∈ tree.trisB,
        (castRay rayAABox rayTriangle idc blockIdBits numTriangleBits
          tree f0 id0).mFraction ≤ rayTriangle x.2.2) ∧
      (castRay rayAABox rayTriangle idc blockIdBits numTriangleBits
        tree f0 id0).mFraction < f0 ∧
      ∃ x ∈ tree.trisB, rayTriangle x.2.2 =
        (castRay rayAABox rayTriangle idc blockIdBits numTriangleBits
          tree f0 id0).mFraction ∧
        (castRay rayAABox rayTriangle idc blockIdBits numTriangleBits
            tree f0 id0).mSubShapeID2 =
          ((idc.pushID x.1 blockIdBits).pushID x.2.1 numTriangleBits).getID) := by
  have hok : rayStackOK rayAABox rayTriangle ([(none, tree)] :
      List (Option ℚ × MTree Box Tri)) := by
    intro e he
    rcases List.mem_cons.mp he with h | h
    · subst h
      refine ⟨hsound, ?_, hnn⟩
      intro q hq
      cases hq
    · simp at h
  have hinv := castRay_walk_inv rayAABox rayTriangle idc blockIdBits numTriangleBits
    [(none, tree)] ⟨f0, id0, false⟩ hok
  obtain ⟨h1, h2, h3⟩ := hinv
  have hstk : stackTrisB ([(none, tree)] : List (Option ℚ × MTree Box Tri)) = tree.trisB := by
    simp [stackTrisB]
  rw [hstk] at h2 h3
  rw [castRay]
  refine ⟨?_, ?_, ?_⟩
  · constructor
    · intro hret
      rcases h3 with h | ⟨_, hlt, x, hx, hrx, _⟩
      · rw [h] at hret
        cases hret
      · exact ⟨x, hx, by rw [hrx]; exact hlt⟩
    · rintro ⟨x, hx, hxlt⟩
      rcases h3 with h | ⟨hret, _, _⟩
      · exfalso
        have hf := h2 x hx
        rw [h] at hf
        exact absurd (lt_of_le_of_lt hf hxlt) (lt_irrefl _)
      · exact hret
  · intro hret
    rcases h3 with h | ⟨hret2, _, _⟩
    · rw [h]
      exact ⟨rfl, rfl⟩
    · rw [hret2] at hret
      cases hret
  · intro hret
    rcases h3 with h | ⟨_, hlt, x, hx, hrx, hid⟩
    · rw [h] at hret
      cases hret
    · exact ⟨h2, hlt, x, hx, hrx, hid⟩

theorem castRay_spec_witness :
    ((MTree.leaf 0 [(5 : ℚ)] : MTree ℚ ℚ).soundB (fun b => b) (fun t => t) = true) ∧
    (∀ x ∈ (MTree.leaf 0 [(5 : ℚ)] : MTree ℚ ℚ).trisB, (0 : ℚ) ≤ x.2.2) ∧
    ((castRay (fun b => b) (fun t => t) ⟨0, 0⟩ 3 2 (MTree.leaf 0 [(5 : ℚ)]) 10
        ⟨0, 0⟩).mReturnValue = true ↔
      ∃ x ∈ (MTree.leaf 0 [(5 : ℚ)] : MTree ℚ ℚ).trisB, x.2.2 < 10) :=
  ⟨rfl, by decide,
    (castRay_spec (fun b => b) (fun t => t) ⟨0, 0⟩ 3 2 (MTree.leaf 0 [(5 : ℚ)]) 10 ⟨0, 0⟩
      rfl (by decide)).1⟩

abbrev Vec3Q := ℚ × ℚ × ℚ

def Vec3.cross (a b : Vec3Q) : Vec3Q :=
  (a.2.1 * b.2.2 - a.2.2 * b.2.1, a.2.2 * b.1 - a.1 * b.2.2, a.1 * b.2.1 - a.2.1 * b.1)

def Vec3.dot (a b : Vec3Q) : ℚ :=
  a.1 * b.1 + a.2.1 * b.2.1 + a.2.2 * b.2.2

abbrev TriV := Vec3Q × Vec3Q × Vec3Q

inductive EBackFaceMode where
  | ignoreBackFaces : EBackFaceMode
  | collideWithBackFaces : EBackFaceMode
deriving DecidableEq

structure RayHit where
  mFraction : ℚ
  hitSubShapeID2 : SubShapeID
deriving DecidableEq

structure CastRayCollectorM (γ : Type) where
  addHit : γ → RayHit → γ
  getEarlyOutFraction : γ → ℚ
  shouldEarlyOut : γ → Bool

/-- Per-triangle body of the collector CastRay loop (MeshShape.cpp CastRay with
CastRayCollector, lines 597-697): under IgnoreBackFaces a triangle whose geometric
normal `(v2 - v0) x (v1 - v0)` has negative dot product with the ray direction is
skipped; otherwise a hit with fraction below the collector's early-out fraction is
added with the sub-shape ID of the triangle pushed onto the creator.  The collector
itself (AddHit, GetEarlyOutFraction, ShouldEarlyOut) lives outside src/ and is an
abstract `CastRayCollectorM` parameter. -/
def castRayCollectStep {γ : Type} (C : CastRayCollectorM γ)
    (rayTriangle : Vec3Q → Vec3Q → TriV → ℚ) (origin dir : Vec3Q) (mode : EBackFaceMode)
    (idc : SubShapeIDCreator) (blockIdBits numTriangleBits : Nat)
    (g : γ) (x : Nat × Nat × TriV) : γ :=
  if mode = EBackFaceMode.ignoreBackFaces ∧
      Vec3.dot (Vec3.cross (x.2.2.2.2 - x.2.2.1) (x.2.2.2.1 - x.2.2.1)) dir < 0 then g
  else
    if rayTriangle origin dir x.2.2 < C.getEarlyOutFraction g then
      C.addHit g
        ⟨rayTriangle origin dir x.2.2,
          ((idc.pushID x.1 blockIdBits).pushID x.2.1 numTriangleBits).getID⟩
    else g

/-- The collector CastRay visitor (MeshShape.cpp lines 597-697): aborts when the
collector wants an early out, visits a node child when its box distance is below the
early-out fraction, and folds `castRayCollectStep` over a leaf's triangles (the
source's triangle loop has no break). -/
def castRayCollectVisitor {Box : Type} {γ : Type} (C : CastRayCollectorM γ)
    (rayAABox : Box → ℚ) (rayTriangle : Vec3Q → Vec3Q → TriV → ℚ)
    (origin dir : Vec3Q) (mode : EBackFaceMode)
    (idc : SubShapeIDCreator) (blockIdBits numTriangleBits : Nat) :
    MVisitor Box TriV γ where
  shouldAbort g := C.shouldEarlyOut g
  shouldVisit g d := decide (d < C.getEarlyOutFraction g)
  visitNodes g cs :=
    (List.insertionSort (fun a b => a.1 ≤ b.1)
      ((cs.map fun c => (rayAABox c.1, c.2)).filter
        fun c => decide (c.1 < C.getEarlyOutFraction g))).map
      fun c => (some c.1, c.2)
  visitLeaf g b tris :=
    (tris.enum.map fun it => (b, it.1, it.2)).foldl
      (castRayCollectStep C rayTriangle origin dir mode idc blockIdBits numTriangleBits) g
  visitNodes_weight := by
    intro s cs
    rw [entryWeight, childWeight]
    have hperm := List.perm_insertionSort (fun a b : (ℚ × MTree Box TriV) => a.1 ≤ b.1)
      ((cs.map fun c => (rayAABox c.1, c.2)).filter
        fun c => decide (c.1 < C.getEarlyOutFraction s))
    have h1 : ((List.insertionSort (fun a b : (ℚ × MTree Box TriV) => a.1 ≤ b.1)
        ((cs.map fun c => (rayAABox c.1, c.2)).filter
          fun c => decide (c.1 < C.getEarlyOutFraction s))).map
          fun c => ((some c.1 : Option ℚ), c.2)).map (fun e => e.2.size)
        = (List.insertionSort (fun a b : (ℚ × MTree Box TriV) => a.1 ≤ b.1)
        ((cs.map fun c => (rayAABox c.1, c.2)).filter
          fun c => decide (c.1 < C.getEarlyOutFraction s))).map
          (fun e => e.2.size) := by
      rw [List.map_map]
      rfl
    rw [h1]
    rw [(hperm.map (fun e : (ℚ × MTree Box TriV) => e.2.size)).sum_eq]
    have h3 := List.filter_sublist (p := fun c : (ℚ × MTree Box TriV) =>
      decide (c.1 < C.getEarlyOutFraction s)) (cs.map fun c => (rayAABox c.1, c.2))
    have h4 := List.Sublist.sum_le_sum (h3.map (fun e : (ℚ × MTree Box TriV) => e.2.size))
      (by intro a _; exact Nat.zero_le a)
    calc (((cs.map fun c => (rayAABox c.1, c.2)).filter
            fun c => decide (c.1 < C.getEarlyOutFraction s)).map (fun e => e.2.size)).sum
        ≤ ((cs.map fun c => (rayAABox c.1, c.2)).map (fun e => e.2.size)).sum := h4
      _ = (cs.map fun e => e.2.size).sum := by rw [List.map_map]; rfl

theorem trisBChildren_eq_flatMap {Box Tri : Type} (cs : List (Box × MTree Box Tri)) :
    MTree.trisBChildren cs = cs.flatMap fun c => (c.2).trisB := by
  induction cs with
  | nil => simp [MTree.trisBChildren]
  | cons c rest ih =>
    obtain ⟨b0, c0⟩ := c
    rw [MTree.trisBChildren, List.flatMap_cons, ih]

theorem stackTrisB_map_entries {Box Tri : Type} (l : List (ℚ × MTree Box Tri)) :
    stackTrisB (l.map fun c => ((some c.1 : Option ℚ), c.2)) = l.flatMap fun c => (c.2).trisB := by
  induction l with
  | nil => simp [stackTrisB]
  | cons c rest ih =>
    simp only [List.map_cons, stackTrisB, List.flatMap_cons] at ih ⊢
    rw [ih]

theorem stackTrisB_cons {Box Tri : Type} (e : Option ℚ × MTree Box Tri)
    (rest : List (Option ℚ × MTree Box Tri)) :
    stackTrisB (e :: rest) = (e.2).trisB ++ stackTrisB rest := by
  simp [stackTrisB]

theorem collectVisitNodes_mem {Box : Type} {γ : Type} (C : CastRayCollectorM γ)
    (rayAABox : Box → ℚ) (rayTriangle : Vec3Q → Vec3Q → TriV → ℚ)
    (origin dir : Vec3Q) (mode : EBackFaceMode)
    (idc : SubShapeIDCreator) (blockIdBits numTriangleBits : Nat) (g : γ)
    (cs : List (Box × MTree Box TriV)) (x : Option ℚ × MTree Box TriV) :
    x ∈ (castRayCollectVisitor C rayAABox rayTriangle origin dir mode idc blockIdBits
        numTriangleBits).visitNodes g cs →
      ∃ bc ∈ cs, x = (some (rayAABox bc.1), bc.2) := by
  simp only [castRayCollectVisitor, List.mem_map, List.mem_insertionSort, List.mem_filter,
    decide_eq_true_eq]
  rintro ⟨c, ⟨⟨bc, hbc, hceq⟩, _⟩, hx⟩
  refine ⟨bc, hbc, ?_⟩
  rw [← hx, ← hceq]

def collectStackDOK {Box Tri : Type} (rayAABox : Box → ℚ)
    (stack : List (Option ℚ × MTree Box Tri)) : Prop :=
  ∀ e ∈ stack, ∀ q, e.1 = some q → ∃ b, q = rayAABox b

theorem castRayCollect_walk_inv {Box : Type} {γ : Type} (C : CastRayCollectorM γ)
    (rayAABox : Box → ℚ) (rayTriangle : Vec3Q → Vec3Q → TriV → ℚ)
    (origin dir : Vec3Q) (mode : EBackFaceMode)
    (idc : SubShapeIDCreator) (blockIdBits numTriangleBits : Nat)
    (h1 : ∀ g, C.shouldEarlyOut g = false)
    (h2 : ∀ (g : γ) (b : Box), rayAABox b < C.getEarlyOutFraction g) :
    ∀ (stack : List (Option ℚ × MTree Box TriV)) (g : γ),
      collectStackDOK rayAABox stack →
      ∃ L : List (Nat × Nat × TriV), List.Perm L (stackTrisB stack) ∧
        walkRun (castRayCollectVisitor C rayAABox rayTriangle origin dir mode idc blockIdBits
          numTriangleBits) stack g
          = ([], L.foldl
              (castRayCollectStep C rayTriangle origin dir mode idc blockIdBits numTriangleBits)
              g) := by
  set V := castRayCollectVisitor C rayAABox rayTriangle origin dir mode idc blockIdBits
    numTriangleBits with hV
  intro stack g
  induction stack, g using walkRun.induct (V := V) with
  | case1 g =>
    intro _
    refine ⟨[], by simp [stackTrisB], ?_⟩
    rw [walkRun_nil]
    simp
  | case2 d t rest g habort =>
    intro _
    exfalso
    have : V.shouldAbort g = C.shouldEarlyOut g := rfl
    rw [this, h1 g] at habort
    cases habort
  | case3 d rest g habort hvisit cs ih =>
    intro hok
    have hnewok : collectStackDOK rayAABox (V.visitNodes g cs ++ rest) := by
      intro e he q hq
      rcases List.mem_append.mp he with he2 | he2
      · obtain ⟨bc, hbc, heq⟩ := collectVisitNodes_mem C rayAABox rayTriangle origin dir mode
          idc blockIdBits numTriangleBits g cs e he2
        subst heq
        cases hq
        exact ⟨bc.1, rfl⟩
      · exact hok e (List.mem_cons_of_mem _ he2) q hq
    obtain ⟨L, hLperm, hLrun⟩ := ih hnewok
    refine ⟨L, ?_, ?_⟩
    · refine hLperm.trans ?_
      -- stackTrisB (visitNodes ++ rest) ~ stackTrisB ((d, node cs) :: rest)
      have hfeq : ((cs.map fun c => (rayAABox c.1, c.2)).filter
          fun c => decide (c.1 < C.getEarlyOutFraction g))
            = cs.map fun c => (rayAABox c.1, c.2) := by
        rw [List.filter_eq_self]
        intro a ha
        obtain ⟨bc, _, heq⟩ := List.mem_map.mp ha
        subst heq
        simpa using h2 g bc.1
      have hperm := List.perm_insertionSort (fun a b : (ℚ × MTree Box TriV) => a.1 ≤ b.1)
        ((cs.map fun c => (rayAABox c.1, c.2)).filter
          fun c => decide (c.1 < C.getEarlyOutFraction g))
      rw [hfeq] at hperm
      have hnodes : stackTrisB (V.visitNodes g cs)
          = (List.insertionSort (fun a b : (ℚ × MTree Box TriV) => a.1 ≤ b.1)
              ((cs.map fun c => (rayAABox c.1, c.2)).filter
                fun c => decide (c.1 < C.getEarlyOutFraction g))).flatMap
              fun c => (c.2).trisB := by
        exact stackTrisB_map_entries _
      have hsplit : stackTrisB (V.visitNodes g cs ++ rest)
          = stackTrisB (V.visitNodes g cs) ++ stackTrisB rest := by
        simp [stackTrisB]
      rw [hsplit, hnodes]
      have hp2 := (hperm.flatMap_right (fun c : (ℚ × MTree Box TriV) => (c.2).trisB))
      have hp3 : ((cs.map fun c => (rayAABox c.1, c.2)).flatMap
          fun c : (ℚ × MTree Box TriV) => (c.2).trisB) = cs.flatMap fun c => (c.2).trisB := by
        rw [List.flatMap_map]
      rw [stackTrisB_cons]
      have hnodetris : ((d, MTree.node cs).2).trisB = MTree.trisBChildren cs := by
        rw [MTree.trisB]
      rw [hnodetris, trisBChildren_eq_flatMap, hfeq]
      exact (hp2.trans (by rw [hp3])).append_right _
    · rw [walkRun_node V d cs rest g habort hvisit]
      exact hLrun
  | case4 d rest g habort hvisit b tris s2 hab2 =>
    intro _
    exfalso
    have : V.shouldAbort s2 = C.shouldEarlyOut s2 := rfl
    rw [this, h1 s2] at hab2
    cases hab2
  | case5 d rest g habort hvisit b tris s2 hab2 ih =>
    intro hok
    have hrestok : collectStackDOK rayAABox rest := fun e he =>
      hok e (List.mem_cons_of_mem _ he)
    obtain ⟨L, hLperm, hLrun⟩ := ih hrestok
    refine ⟨(tris.enum.map fun it => (b, it.1, it.2)) ++ L, ?_, ?_⟩
    · rw [stackTrisB_cons]
      have hleaf : ((d, (MTree.leaf b tris : MTree Box TriV)).2).trisB
          = tris.enum.map fun it => (b, it.1, it.2) := by
        rw [MTree.trisB]
      rw [hleaf]
      exact hLperm.append_left _
    · rw [walkRun_leaf_cont V d b tris rest g habort hvisit hab2]
      rw [hLrun, List.foldl_append]
      rfl
  | case6 d t rest g habort hvisit ih =>
    intro hok
    exfalso
    cases d with
    | none => simp at hvisit
    | some q =>
      obtain ⟨b, hb⟩ := hok (some q, t) (List.mem_cons_self _ _) q rfl
      have h5 : ¬ ((castRayCollectVisitor C rayAABox rayTriangle origin dir mode idc blockIdBits
        numTriangleBits).shouldVisit g q) = true := hvisit
      rw [castRayCollectVisitor] at h5
      simp only [decide_eq_true_eq, not_lt] at h5
      have := h2 g b
      rw [← hb] at this
      exact absurd this (not_lt.mpr h5)

/-- Collector CastRay entry point: walk the whole tree from the root. -/
def castRayCollect {Box : Type} {γ : Type} (C : CastRayCollectorM γ)
    (rayAABox : Box → ℚ) (rayTriangle : Vec3Q → Vec3Q → TriV → ℚ)
    (origin dir : Vec3Q) (mode : EBackFaceMode)
    (idc : SubShapeIDCreator) (blockIdBits numTriangleBits : Nat)
    (tree : MTree Box TriV) (g0 : γ) : γ :=
  (walkRun (castRayCollectVisitor C rayAABox rayTriangle origin dir mode idc blockIdBits
    numTriangleBits) [(none, tree)] g0).2

/-- C8: the collecting CastRay respects the early-out contract: if the collector
already wants an early out nothing happens, and as long as the collector never
requests an early out and every encountered box distance passes the early-out test,
the walk degenerates to folding the per-triangle step (backface skip under
IgnoreBackFaces, conditional AddHit) over some permutation of all triangles of the
tree. -/
theorem castRayCollect_spec {Box : Type} {γ : Type} (C : CastRayCollectorM γ)
    (rayAABox : Box → ℚ) (rayTriangle : Vec3Q → Vec3Q → TriV → ℚ)
    (origin dir : Vec3Q) (mode : EBackFaceMode)
    (idc : SubShapeIDCreator) (blockIdBits numTriangleBits : Nat)
    (tree : MTree Box TriV) (g0 : γ) :
    (C.shouldEarlyOut g0 = true →
      castRayCollect C rayAABox rayTriangle origin dir mode idc blockIdBits numTriangleBits
        tree g0 = g0) ∧
    ((∀ g, C.shouldEarlyOut g = false) →
      (∀ (g : γ) (b : Box), rayAABox b < C.getEarlyOutFraction g) →
      ∃ L : List (Nat × Nat × TriV), List.Perm L tree.trisB ∧
        castRayCollect C rayAABox rayTriangle origin dir mode idc blockIdBits numTriangleBits
            tree g0
          = L.foldl
              (castRayCollectStep C rayTriangle origin dir mode idc blockIdBits numTriangleBits)
              g0) := by
  constructor
  · intro hout
    rw [castRayCollect, walkRun_abort _ _ _ _ _ hout]
  · intro h1 h2
    have hdok : collectStackDOK rayAABox ([(none, tree)] :
        List (Option ℚ × MTree Box TriV)) := by
      intro e he q hq
      rcases List.mem_cons.mp he with h | h
      · subst h
        cases hq
      · simp at h
    obtain ⟨L, hLperm, hLrun⟩ := castRayCollect_walk_inv C rayAABox rayTriangle origin dir
      mode idc blockIdBits numTriangleBits h1 h2 [(none, tree)] g0 hdok
    refine ⟨L, ?_, ?_⟩
    · refine hLperm.trans ?_
      simp [stackTrisB]
    · rw [castRayCollect, hLrun]

theorem castRayCollect_spec_witness :
    (castRayCollect (⟨fun g h => g ++ [h], fun _ => 100, fun _ => true⟩ :
        CastRayCollectorM (List RayHit))
      (fun _ : ℚ => 0) (fun _ _ _ => (1 : ℚ)) ((0 : ℚ), (0 : ℚ), (0 : ℚ))
      ((0 : ℚ), (0 : ℚ), (1 : ℚ)) EBackFaceMode.ignoreBackFaces ⟨0, 0⟩ 3 2
      (MTree.leaf 0 [(((0 : ℚ), (0 : ℚ), (0 : ℚ)), ((1 : ℚ), (0 : ℚ), (0 : ℚ)),
        ((0 : ℚ), (1 : ℚ), (0 : ℚ)))]) [] = []) ∧
    (∃ L : List (Nat × Nat × TriV),
      List.Perm L (MTree.leaf 0 [(((0 : ℚ), (0 : ℚ), (0 : ℚ)), ((1 : ℚ), (0 : ℚ), (0 : ℚ)),
        ((0 : ℚ), (1 : ℚ), (0 : ℚ)))] : MTree ℚ TriV).trisB ∧
      castRayCollect (⟨fun g h => g ++ [h], fun _ => 100, fun _ => false⟩ :
          CastRayCollectorM (List RayHit))
        (fun _ : ℚ => 0) (fun _ _ _ => (1 : ℚ)) ((0 : ℚ), (0 : ℚ), (0 : ℚ))
        ((0 : ℚ), (0 : ℚ), (1 : ℚ)) EBackFaceMode.ignoreBackFaces ⟨0, 0⟩ 3 2
        (MTree.leaf 0 [(((0 : ℚ), (0 : ℚ), (0 : ℚ)), ((1 : ℚ), (0 : ℚ), (0 : ℚ)),
          ((0 : ℚ), (1 : ℚ), (0 : ℚ)))]) []
        = L.foldl
            (castRayCollectStep
              (⟨fun g h => g ++ [h], fun _ => 100, fun _ => false⟩ :
                CastRayCollectorM (List RayHit))
              (fun _ _ _ => (1 : ℚ)) ((0 : ℚ), (0 : ℚ), (0 : ℚ)) ((0 : ℚ), (0 : ℚ), (1 : ℚ))
              EBackFaceMode.ignoreBackFaces ⟨0, 0⟩ 3 2)
            []) :=
  ⟨(castRayCollect_spec _ _ _ _ _ _ _ _ _ _ _).1 rfl,
    (castRayCollect_spec _ _ _ _ _ _ _ _ _ _ _).2 (fun _ => rfl) (fun _ _ => by norm_num)⟩

/-- Modelled from the spec: FLT_MAX stands in for the infinite early-out fraction of
a closest-hit query; any finite float distance is below it. -/
def FLT_MAX_Q : ℚ := 2 ^ 128

/-- Modelled from the spec: the HitCountCollector of CollidePoint (outside src/)
counts accepted hits and remembers the last hit's sub-shape ID; it never early-outs
and its early-out fraction stays FLT_MAX. -/
structure HitCountCollector where
  mHitCount : Nat
  mSubShapeID : SubShapeID
deriving DecidableEq

def hitCountCollector : CastRayCollectorM HitCountCollector :=
  ⟨fun g h => ⟨g.mHitCount + 1, h.hitSubShapeID2⟩, fun _ => FLT_MAX_Q, fun _ => false⟩

structure AABoxM where
  mMin : Vec3Q
  mMax : Vec3Q
deriving DecidableEq

def AABoxM.contains (box : AABoxM) (p : Vec3Q) : Bool :=
  decide (box.mMin.1 ≤ p.1) && decide (p.1 ≤ box.mMax.1) &&
  (decide (box.mMin.2.1 ≤ p.2.1) && decide (p.2.1 ≤ box.mMax.2.1)) &&
  (decide (box.mMin.2.2 ≤ p.2.2) && decide (p.2.2 ≤ box.mMax.2.2))

def pointDirection (bounds : AABoxM) : Vec3Q :=
  ((0 : ℚ), (11 / 10 : ℚ) * (bounds.mMax.2.1 - bounds.mMin.2.1), (0 : ℚ))

/-- CollidePoint (MeshShape.cpp lines 699-733): if the point is inside the shape's
bounding box, cast a ray from the point in direction `(0, 1.1 * height, 0)` with
CollideWithBackFaces through the HitCountCollector; report the point as inside (one
hit carrying the last sub-shape ID) exactly when the hit count is odd. -/
def collidePoint {Box : Type} (rayAABox : Vec3Q → Vec3Q → Box → ℚ)
    (rayTriangle : Vec3Q → Vec3Q → TriV → ℚ) (bounds : AABoxM) (tree : MTree Box TriV)
    (point : Vec3Q) (idc : SubShapeIDCreator) (blockIdBits numTriangleBits : Nat) :
    List SubShapeID :=
  if bounds.contains point then
    if (castRayCollect hitCountCollector (rayAABox point (pointDirection bounds)) rayTriangle
        point (pointDirection bounds) EBackFaceMode.collideWithBackFaces idc blockIdBits
        numTriangleBits tree ⟨0, ⟨0, 0⟩⟩).mHitCount % 2 = 1 then
      [(castRayCollect hitCountCollector (rayAABox point (pointDirection bounds)) rayTriangle
        point (pointDirection bounds) EBackFaceMode.collideWithBackFaces idc blockIdBits
        numTriangleBits tree ⟨0, ⟨0, 0⟩⟩).mSubShapeID]
    else []
  else []

theorem hitCount_fold (rayTriangle : Vec3Q → Vec3Q → TriV → ℚ) (origin dir : Vec3Q)
    (idc : SubShapeIDCreator) (blockIdBits numTriangleBits : Nat)
    (L : List (Nat × Nat × TriV)) (g : HitCountCollector) :
    (L.foldl (castRayCollectStep hitCountCollector rayTriangle origin dir
        EBackFaceMode.collideWithBackFaces idc blockIdBits numTriangleBits) g).mHitCount
      = g.mHitCount + L.countP (fun x => decide (rayTriangle origin dir x.2.2 < FLT_MAX_Q)) ∧
    (L.countP (fun x => decide (rayTriangle origin dir x.2.2 < FLT_MAX_Q)) = 0 →
      (L.foldl (castRayCollectStep hitCountCollector rayTriangle origin dir
        EBackFaceMode.collideWithBackFaces idc blockIdBits numTriangleBits) g).mSubShapeID
        = g.mSubShapeID) ∧
    (1 ≤ L.countP (fun x => decide (rayTriangle origin dir x.2.2 < FLT_MAX_Q)) →
      ∃ x ∈ L, rayTriangle origin dir x.2.2 < FLT_MAX_Q ∧
        (L.foldl (castRayCollectStep hitCountCollector rayTriangle origin dir
          EBackFaceMode.collideWithBackFaces idc blockIdBits numTriangleBits) g).mSubShapeID
          = ((idc.pushID x.1 blockIdBits).pushID x.2.1 numTriangleBits).getID) := by
  induction L generalizing g with
  | nil => simp
  | cons x L ih =>
    have hstep : ∀ g2 : HitCountCollector,
        castRayCollectStep hitCountCollector rayTriangle origin dir
          EBackFaceMode.collideWithBackFaces idc blockIdBits numTriangleBits g2 x
        = if rayTriangle origin dir x.2.2 < FLT_MAX_Q then
            (⟨g2.mHitCount + 1,
              ((idc.pushID x.1 blockIdBits).pushID x.2.1 numTriangleBits).getID⟩ :
              HitCountCollector)
          else g2 := by
      intro g2
      rw [castRayCollectStep]
      rw [if_neg (by simp)]
      rfl
    simp only [List.foldl_cons, List.countP_cons]
    by_cases hq : rayTriangle origin dir x.2.2 < FLT_MAX_Q
    · rw [hstep g, if_pos hq]
      obtain ⟨ih1, ih2, ih3⟩ := ih ⟨g.mHitCount + 1,
        ((idc.pushID x.1 blockIdBits).pushID x.2.1 numTriangleBits).getID⟩
      refine ⟨?_, ?_, ?_⟩
      · rw [ih1]
        simp [hq]
        omega
      · intro hz
        simp [hq] at hz
      · intro _
        by_cases hz : L.countP (fun y => decide (rayTriangle origin dir y.2.2 < FLT_MAX_Q)) = 0
        · refine ⟨x, List.mem_cons_self _ _, hq, ?_⟩
          exact ih2 hz
        · obtain ⟨y, hy, hyq, hyid⟩ := ih3 (by omega)
          exact ⟨y, List.mem_cons_of_mem _ hy, hyq, hyid⟩
    · rw [hstep g, if_neg hq]
      obtain ⟨ih1, ih2, ih3⟩ := ih g
      refine ⟨?_, ?_, ?_⟩
      · rw [ih1]
        simp [hq]
      · intro hz
        have hqd : (decide (rayTriangle origin dir x.2.2 < FLT_MAX_Q)) = false := by
          simpa using hq
        simp only [hqd] at hz
        rw [if_neg Bool.false_ne_true] at hz
        exact ih2 (by omega)
      · intro hc
        have hqd : (decide (rayTriangle origin dir x.2.2 < FLT_MAX_Q)) = false := by
          simpa using hq
        simp only [hqd] at hc
        rw [if_neg Bool.false_ne_true] at hc
        obtain ⟨y, hy, hyq, hyid⟩ := ih3 (by omega)
        exact ⟨y, List.mem_cons_of_mem _ hy, hyq, hyid⟩

/-- C7: CollidePoint returns no hit for a point outside the bounding box, and for a
point inside it reports containment exactly when the upward ray crosses an odd number
of triangles (counted with the backface-collecting filter), carrying the sub-shape ID
of the last counted triangle. -/
theorem collidePoint_spec {Box : Type} (rayAABox : Vec3Q → Vec3Q → Box → ℚ)
    (rayTriangle : Vec3Q → Vec3Q → TriV → ℚ) (bounds : AABoxM) (tree : MTree Box TriV)
    (point : Vec3Q) (idc : SubShapeIDCreator) (blockIdBits numTriangleBits : Nat)
    (hbox : ∀ (o d : Vec3Q) (b : Box), rayAABox o d b < FLT_MAX_Q) :
    (bounds.contains point = false →
      collidePoint rayAABox rayTriangle bounds tree point idc blockIdBits numTriangleBits
        = []) ∧
    (bounds.contains point = true →
      ((tree.trisB.countP fun x =>
          decide (rayTriangle point (pointDirection bounds) x.2.2 < FLT_MAX_Q)) % 2 = 1 →
        ∃ x ∈ tree.trisB, rayTriangle point (pointDirection bounds) x.2.2 < FLT_MAX_Q ∧
          collidePoint rayAABox rayTriangle bounds tree point idc blockIdBits numTriangleBits
            = [((idc.pushID x.1 blockIdBits).pushID x.2.1 numTriangleBits).getID]) ∧
      ((tree.trisB.countP fun x =>
          decide (rayTriangle point (pointDirection bounds) x.2.2 < FLT_MAX_Q)) % 2 = 0 →
        collidePoint rayAABox rayTriangle bounds tree point idc blockIdBits numTriangleBits
          = [])) := by
  constructor
  · intro hcont
    rw [collidePoint, if_neg (by rw [hcont]; exact Bool.false_ne_true)]
  · intro hcont
    obtain ⟨L, hperm, hrun⟩ := (castRayCollect_spec hitCountCollector
      (rayAABox point (pointDirection bounds)) rayTriangle point (pointDirection bounds)
      EBackFaceMode.collideWithBackFaces idc blockIdBits numTriangleBits tree
      ⟨0, ⟨0, 0⟩⟩).2 (fun _ => rfl) (fun g b => hbox point (pointDirection bounds) b)
    obtain ⟨hcount, hid0, hidw⟩ := hitCount_fold rayTriangle point (pointDirection bounds)
      idc blockIdBits numTriangleBits L ⟨0, ⟨0, 0⟩⟩
    have hcntP := hperm.countP_eq
      (fun x => decide (rayTriangle point (pointDirection bounds) x.2.2 < FLT_MAX_Q))
    have hcount2 : (L.foldl (castRayCollectStep hitCountCollector rayTriangle point
        (pointDirection bounds) EBackFaceMode.collideWithBackFaces idc blockIdBits
        numTriangleBits) ⟨0, ⟨0, 0⟩⟩).mHitCount
        = tree.trisB.countP
            (fun x => decide (rayTriangle point (pointDirection bounds) x.2.2 < FLT_MAX_Q)) := by
      rw [hcount, ← hcntP]
      simp
    constructor
    · intro hodd
      have hge : 1 ≤ L.countP
          (fun x => decide (rayTriangle point (pointDirection bounds) x.2.2 < FLT_MAX_Q)) := by
        omega
      obtain ⟨x, hx, hxq, hxid⟩ := hidw hge
      refine ⟨x, hperm.mem_iff.mp hx, hxq, ?_⟩
      rw [collidePoint, if_pos hcont, hrun]
      rw [if_pos (by rw [hcount2]; omega)]
      rw [hxid]
    · intro heven
      rw [collidePoint, if_pos hcont, hrun]
      rw [if_neg (by rw [hcount2]; omega)]

set_option maxRecDepth 8000 in
theorem collidePoint_spec_witness :
    (AABoxM.contains ⟨((0 : ℚ), (0 : ℚ), (0 : ℚ)), ((2 : ℚ), (2 : ℚ), (2 : ℚ))⟩
        ((3 : ℚ), (1 : ℚ), (1 : ℚ)) = false ∧
      collidePoint (fun _ _ _ => (0 : ℚ)) (fun _ _ _ => (1 : ℚ))
        ⟨((0 : ℚ), (0 : ℚ), (0 : ℚ)), ((2 : ℚ), (2 : ℚ), (2 : ℚ))⟩
        (MTree.leaf 0 [(((0 : ℚ), (0 : ℚ), (0 : ℚ)), ((1 : ℚ), (0 : ℚ), (0 : ℚ)),
          ((0 : ℚ), (1 : ℚ), (0 : ℚ)))] : MTree ℚ TriV)
        ((3 : ℚ), (1 : ℚ), (1 : ℚ)) ⟨0, 0⟩ 3 2 = []) ∧
    (∃ x ∈ (MTree.leaf 0 [(((0 : ℚ), (0 : ℚ), (0 : ℚ)), ((1 : ℚ), (0 : ℚ), (0 : ℚ)),
        ((0 : ℚ), (1 : ℚ), (0 : ℚ)))] : MTree ℚ TriV).trisB,
      (1 : ℚ) < FLT_MAX_Q ∧
      collidePoint (fun _ _ _ => (0 : ℚ)) (fun _ _ _ => (1 : ℚ))
        ⟨((0 : ℚ), (0 : ℚ), (0 : ℚ)), ((2 : ℚ), (2 : ℚ), (2 : ℚ))⟩
        (MTree.leaf 0 [(((0 : ℚ), (0 : ℚ), (0 : ℚ)), ((1 : ℚ), (0 : ℚ), (0 : ℚ)),
          ((0 : ℚ), (1 : ℚ), (0 : ℚ)))] : MTree ℚ TriV)
        ((1 : ℚ), (1 : ℚ), (1 : ℚ)) ⟨0, 0⟩ 3 2
        = [((SubShapeIDCreator.pushID ⟨0, 0⟩ x.1 3).pushID x.2.1 2).getID]) :=
  ⟨⟨by decide,
    (collidePoint_spec (fun _ _ _ => (0 : ℚ)) (fun _ _ _ => (1 : ℚ))
      ⟨((0 : ℚ), (0 : ℚ), (0 : ℚ)), ((2 : ℚ), (2 : ℚ), (2 : ℚ))⟩
      (MTree.leaf 0 [(((0 : ℚ), (0 : ℚ), (0 : ℚ)), ((1 : ℚ), (0 : ℚ), (0 : ℚ)),
        ((0 : ℚ), (1 : ℚ), (0 : ℚ)))] : MTree ℚ TriV)
      ((3 : ℚ), (1 : ℚ), (1 : ℚ)) ⟨0, 0⟩ 3 2
      (fun _ _ _ => by norm_num [FLT_MAX_Q])).1 (by decide)⟩,
    ((collidePoint_spec (fun _ _ _ => (0 : ℚ)) (fun _ _ _ => (1 : ℚ))
      ⟨((0 : ℚ), (0 : ℚ), (0 : ℚ)), ((2 : ℚ), (2 : ℚ), (2 : ℚ))⟩
      (MTree.leaf 0 [(((0 : ℚ), (0 : ℚ), (0 : ℚ)), ((1 : ℚ), (0 : ℚ), (0 : ℚ)),
        ((0 : ℚ), (1 : ℚ), (0 : ℚ)))] : MTree ℚ TriV)
      ((1 : ℚ), (1 : ℚ), (1 : ℚ)) ⟨0, 0⟩ 3 2
      (fun _ _ _ => by norm_num [FLT_MAX_Q])).2 (by decide)).1 (by decide)⟩

/-- MSGetTrianglesContext (MeshShape.cpp lines 828-934): the persistent part of a
GetTrianglesStart/GetTrianglesNext session is the walker stack. -/
structure MSGetTrianglesContext (Box Tri : Type) where
  stack : List (Option ℚ × MTree Box Tri)

/-- Per-call state of the GetTrianglesNext visitor: triangles found so far, the
decoded output written to the caller's buffer, and the abort flag. -/
structure GTState (Out : Type) where
  mNumTrianglesFound : Nat
  emitted : List Out
  mShouldAbort : Bool

/-- The GetTriangles visitor (MSGetTrianglesContext::VisitTriangles, MeshShape.cpp
lines 866-933): nodes are pre-filtered by box overlap (modelled by `collides`), every
surviving child is pushed; a leaf whose triangle count would overflow the remaining
buffer sets mShouldAbort without consuming the leaf, otherwise the leaf's triangles
are decoded (modelled by `transform`) and appended to the output. -/
def getTrianglesVisitor {Box Tri Out : Type} (collides : Box → Bool) (transform : Tri → Out)
    (maxTrianglesRequested : Nat) : MVisitor Box Tri (GTState Out) where
  shouldAbort s := s.mShouldAbort
  shouldVisit _ _ := true
  visitNodes _ cs := (cs.filter fun c => collides c.1).map fun c => (some 0, c.2)
  visitLeaf s _ tris :=
    if maxTrianglesRequested < s.mNumTrianglesFound + tris.length then
      { s with mShouldAbort := true }
    else
      { mNumTrianglesFound := s.mNumTrianglesFound + tris.length,
        emitted := s.emitted ++ tris.map transform,
        mShouldAbort := s.mShouldAbort }
  visitNodes_weight := by
    intro s cs
    rw [entryWeight, childWeight]
    have h1 : (((cs.filter fun c => collides c.1).map fun c => ((some 0 : Option ℚ), c.2)).map
        fun e => e.2.size) = (cs.filter fun c => collides c.1).map fun e => e.2.size := by
      rw [List.map_map]
      rfl
    rw [h1]
    exact List.Sublist.sum_le_sum
      ((List.filter_sublist cs).map fun e => e.2.size)
      (by intro a _; exact Nat.zero_le a)

mutual
/-- The triangles selected by a region query: all triangles of every leaf reachable
through boxes accepted by `collides`. -/
def MTree.selTris {Box Tri : Type} (collides : Box → Bool) : MTree Box Tri → List Tri
  | .leaf _ ts => ts
  | .node cs => MTree.selChildren collides cs
def MTree.selChildren {Box Tri : Type} (collides : Box → Bool) :
    List (Box × MTree Box Tri) → List Tri
  | [] => []
  | (b, c) :: rest =>
    (if collides b then MTree.selTris collides c else []) ++ MTree.selChildren collides rest
end

def selStack {Box Tri : Type} (collides : Box → Bool)
    (stack : List (Option ℚ × MTree Box Tri)) : List Tri :=
  stack.flatMap fun e => (e.2).selTris collides

mutual
def MTree.leavesAtMost {Box Tri : Type} (m : Nat) : MTree Box Tri → Bool
  | .leaf _ ts => decide (ts.length ≤ m)
  | .node cs => MTree.leavesAtMostChildren m cs
def MTree.leavesAtMostChildren {Box Tri : Type} (m : Nat) :
    List (Box × MTree Box Tri) → Bool
  | [] => true
  | (_, c) :: rest => MTree.leavesAtMost m c && MTree.leavesAtMostChildren m rest
end

def stackLeavesAtMost {Box Tri : Type} (m : Nat)
    (stack : List (Option ℚ × MTree Box Tri)) : Bool :=
  stack.all fun e => (e.2).leavesAtMost m

theorem selStack_cons {Box Tri : Type} (collides : Box → Bool)
    (e : Option ℚ × MTree Box Tri) (rest : List (Option ℚ × MTree Box Tri)) :
    selStack collides (e :: rest) = (e.2).selTris collides ++ selStack collides rest := by
  simp [selStack]

theorem selStack_filtered {Box Tri : Type} (collides : Box → Bool)
    (cs : List (Box × MTree Box Tri)) :
    selStack collides ((cs.filter fun c => collides c.1).map fun c => ((some 0 : Option ℚ), c.2))
      = MTree.selChildren collides cs := by
  induction cs with
  | nil => simp [selStack, MTree.selChildren]
  | cons c rest ih =>
    obtain ⟨b0, c0⟩ := c
    rw [MTree.selChildren]
    by_cases hc : collides b0 = true
    · rw [List.filter_cons_of_pos (by simpa using hc), List.map_cons, selStack_cons, ih,
        if_pos hc]
    · rw [List.filter_cons_of_neg (by simpa using hc), ih, if_neg hc]
      simp

theorem leavesAtMostChildren_mem {Box Tri : Type} (m : Nat)
    (cs : List (Box × MTree Box Tri)) (h : MTree.leavesAtMostChildren m cs = true) :
    ∀ c ∈ cs, MTree.leavesAtMost m c.2 = true := by
  induction cs with
  | nil => simp
  | cons c rest ih =>
    obtain ⟨b0, c0⟩ := c
    rw [MTree.leavesAtMostChildren, Bool.and_eq_true] at h
    intro e he
    rcases List.mem_cons.mp he with he | he
    · rw [he]
      exact h.1
    · exact ih h.2 e he

theorem stackLeavesAtMost_cons {Box Tri : Type} (m : Nat)
    (e : Option ℚ × MTree Box Tri) (rest : List (Option ℚ × MTree Box Tri)) :
    stackLeavesAtMost m (e :: rest)
      = ((e.2).leavesAtMost m && stackLeavesAtMost m rest) := by
  simp [stackLeavesAtMost]

theorem stackLeavesAtMost_append {Box Tri : Type} (m : Nat)
    (l1 l2 : List (Option ℚ × MTree Box Tri)) :
    stackLeavesAtMost m (l1 ++ l2)
      = (stackLeavesAtMost m l1 && stackLeavesAtMost m l2) := by
  simp [stackLeavesAtMost, List.all_append]

theorem gt_walk_inv {Box Tri Out : Type} (collides : Box → Bool) (transform : Tri → Out)
    (maxReq : Nat) :
    ∀ (stack : List (Option ℚ × MTree Box Tri)) (s : GTState Out),
      s.mShouldAbort = false →
      ∃ Δ : List Tri,
        (walkRun (getTrianglesVisitor collides transform maxReq) stack s).2.emitted
          = s.emitted ++ Δ.map transform ∧
        (walkRun (getTrianglesVisitor collides transform maxReq) stack s).2.mNumTrianglesFound
          = s.mNumTrianglesFound + Δ.length ∧
        Δ ++ selStack collides
            (walkRun (getTrianglesVisitor collides transform maxReq) stack s).1
          = selStack collides stack ∧
        ((walkRun (getTrianglesVisitor collides transform maxReq) stack s).1 = [] ∨
          ∃ d b tris rest2,
            (walkRun (getTrianglesVisitor collides transform maxReq) stack s).1
              = (d, MTree.leaf b tris) :: rest2 ∧
            (walkRun (getTrianglesVisitor collides transform maxReq) stack s).2.mShouldAbort
              = true ∧
            maxReq <
              (walkRun (getTrianglesVisitor collides transform maxReq)
                stack s).2.mNumTrianglesFound + tris.length) ∧
        (∀ m, stackLeavesAtMost m stack = true →
          stackLeavesAtMost m
            (walkRun (getTrianglesVisitor collides transform maxReq) stack s).1 = true) := by
  set V := getTrianglesVisitor collides transform maxReq with hV
  intro stack s
  induction stack, s using walkRun.induct (V := V) with
  | case1 s =>
    intro _
    rw [walkRun_nil]
    exact ⟨[], by simp, by simp, by simp, Or.inl rfl, fun m h => h⟩
  | case2 d t rest s habort =>
    intro hs
    exact absurd habort (by simp [hV, getTrianglesVisitor, hs])
  | case3 d rest s habort hvisit cs ih =>
    intro hs
    rw [walkRun_node V d cs rest s habort hvisit]
    obtain ⟨Δ, h1, h2, h3, h4, h5⟩ := ih hs
    refine ⟨Δ, h1, h2, ?_, h4, ?_⟩
    · rw [h3]
      have hvn : V.visitNodes s cs
          = (cs.filter fun c => collides c.1).map fun c => ((some 0 : Option ℚ), c.2) := rfl
      rw [hvn]
      have hsel : selStack collides
          (((cs.filter fun c => collides c.1).map fun c => ((some 0 : Option ℚ), c.2)) ++ rest)
          = MTree.selChildren collides cs ++ selStack collides rest := by
        simp only [selStack, List.flatMap_append]
        rw [← selStack, ← selStack, selStack_filtered]
      rw [hsel, selStack_cons]
      rfl
    · intro m hm
      apply h5
      rw [stackLeavesAtMost_cons, Bool.and_eq_true] at hm
      have hvn : V.visitNodes s cs
          = (cs.filter fun c => collides c.1).map fun c => ((some 0 : Option ℚ), c.2) := rfl
      rw [hvn, stackLeavesAtMost_append, Bool.and_eq_true]
      refine ⟨?_, hm.2⟩
      have hch : MTree.leavesAtMostChildren m cs = true := hm.1
      rw [stackLeavesAtMost]
      rw [List.all_eq_true]
      intro e he
      simp only [List.mem_map, List.mem_filter] at he
      obtain ⟨c, ⟨hc, _⟩, hce⟩ := he
      rw [← hce]
      exact leavesAtMostChildren_mem m cs hch c hc
  | case4 d rest s habort hvisit b tris s2 hab2 =>
    intro hs
    rw [walkRun_leaf_abort V d b tris rest s habort hvisit hab2]
    by_cases hcond : maxReq < s.mNumTrianglesFound + tris.length
    · have hvl : V.visitLeaf s b tris = { s with mShouldAbort := true } := by
        simp only [hV, getTrianglesVisitor, if_pos hcond]
      refine ⟨[], by simp [hvl], by simp [hvl], by simp, Or.inr ?_, fun m h => h⟩
      exact ⟨d, b, tris, rest, rfl, by simp [hvl], by simp [hvl]; omega⟩
    · exfalso
      have h2 : (V.visitLeaf s b tris).mShouldAbort = true := hab2
      rw [hV] at h2
      simp only [getTrianglesVisitor, if_neg hcond] at h2
      rw [hs] at h2
      exact Bool.false_ne_true h2
  | case5 d rest s habort hvisit b tris s2 hab2 ih =>
    intro hs
    rw [walkRun_leaf_cont V d b tris rest s habort hvisit hab2]
    by_cases hcond : maxReq < s.mNumTrianglesFound + tris.length
    · exfalso
      apply hab2
      show (V.visitLeaf s b tris).mShouldAbort = true
      rw [hV]
      simp only [getTrianglesVisitor, if_pos hcond]
    · have hvl : V.visitLeaf s b tris =
          { mNumTrianglesFound := s.mNumTrianglesFound + tris.length,
            emitted := s.emitted ++ tris.map transform,
            mShouldAbort := s.mShouldAbort } := by
        rw [hV]
        simp only [getTrianglesVisitor, if_neg hcond]
      have hs2 : s2 = V.visitLeaf s b tris := rfl
      rw [hvl]
      rw [hs2, hvl] at ih
      obtain ⟨Δ, h1, h2, h3, h4, h5⟩ := ih hs
      refine ⟨tris ++ Δ, ?_, ?_, ?_, h4, fun m hm => ?_⟩
      · rw [h1]
        simp
      · rw [h2]
        simp only [List.length_append]
        omega
      · rw [List.append_assoc, h3, selStack_cons]
        rfl
      · apply h5
        rw [stackLeavesAtMost_cons, Bool.and_eq_true] at hm
        exact hm.2
  | case6 d t rest s habort hvisit ih =>
    intro hs
    exfalso
    apply hvisit
    cases d with
    | none => rfl
    | some q => rfl

/-- GetTrianglesNext (MeshShape.cpp lines 944-966): an exhausted walker returns 0
immediately; otherwise the per-call state is reset (abort cleared, count zeroed) and
the walk resumes from the stored stack. -/
def getTrianglesNext {Box Tri Out : Type} (collides : Box → Bool) (transform : Tri → Out)
    (ctx : MSGetTrianglesContext Box Tri) (maxTrianglesRequested : Nat) :
    MSGetTrianglesContext Box Tri × List Out × Nat :=
  if ctx.stack.isEmpty then (ctx, [], 0)
  else
    let r := walkRun (getTrianglesVisitor collides transform maxTrianglesRequested) ctx.stack
      ⟨0, [], false⟩
    (⟨r.1⟩, r.2.emitted, r.2.mNumTrianglesFound)

/-- GetTrianglesStart: the session starts with the root on the stack. -/
def getTrianglesStart {Box Tri : Type} (tree : MTree Box Tri) : MSGetTrianglesContext Box Tri :=
  ⟨[((none : Option ℚ), tree)]⟩

/-- Fuel-bounded iteration of GetTrianglesNext, concatenating the per-call output
batches. -/
def drainAux {Box Tri Out : Type} (collides : Box → Bool) (transform : Tri → Out)
    (maxTrianglesRequested : Nat) :
    Nat → MSGetTrianglesContext Box Tri → List Out × MSGetTrianglesContext Box Tri
  | 0, ctx => ([], ctx)
  | fuel + 1, ctx =>
    if ctx.stack.isEmpty then ([], ctx)
    else
      let r := getTrianglesNext collides transform ctx maxTrianglesRequested
      let rest := drainAux collides transform maxTrianglesRequested fuel r.1
      (r.2.1 ++ rest.1, rest.2)

theorem drainAux_empty {Box Tri Out : Type} (collides : Box → Bool) (transform : Tri → Out)
    (maxReq fuel : Nat) (ctx : MSGetTrianglesContext Box Tri) (h : ctx.stack = []) :
    drainAux collides transform maxReq fuel ctx = (([] : List Out), ctx) := by
  cases fuel with
  | zero => rfl
  | succ n =>
    rw [drainAux, if_pos]
    rw [h]
    rfl

theorem getTrianglesNext_call {Box Tri Out : Type} (collides : Box → Bool)
    (transform : Tri → Out) (maxReq : Nat) (ctx : MSGetTrianglesContext Box Tri)
    (h : ctx.stack ≠ []) :
    ∃ Δ : List Tri,
      (getTrianglesNext collides transform ctx maxReq).2.1 = Δ.map transform ∧
      (getTrianglesNext collides transform ctx maxReq).2.2 = Δ.length ∧
      Δ ++ selStack collides (getTrianglesNext collides transform ctx maxReq).1.stack
        = selStack collides ctx.stack ∧
      ((getTrianglesNext collides transform ctx maxReq).1.stack = [] ∨
        ∃ d b tris rest2,
          (getTrianglesNext collides transform ctx maxReq).1.stack
            = (d, MTree.leaf b tris) :: rest2 ∧
          maxReq < Δ.length + tris.length) ∧
      (∀ m, stackLeavesAtMost m ctx.stack = true →
        stackLeavesAtMost m (getTrianglesNext collides transform ctx maxReq).1.stack = true) := by
  have hne : ctx.stack.isEmpty = false := by
    cases hs : ctx.stack with
    | nil => exact absurd hs h
    | cons e rest => rfl
  obtain ⟨Δ, h1, h2, h3, h4, h5⟩ :=
    gt_walk_inv collides transform maxReq ctx.stack ⟨0, [], false⟩ rfl
  have hgt : getTrianglesNext collides transform ctx maxReq
      = (⟨(walkRun (getTrianglesVisitor collides transform maxReq) ctx.stack ⟨0, [], false⟩).1⟩,
        (walkRun (getTrianglesVisitor collides transform maxReq) ctx.stack ⟨0, [], false⟩).2.emitted,
        (walkRun (getTrianglesVisitor collides transform maxReq) ctx.stack
          ⟨0, [], false⟩).2.mNumTrianglesFound) := by
    rw [getTrianglesNext, hne]
    rfl
  refine ⟨Δ, ?_, ?_, ?_, ?_, ?_⟩
  · rw [hgt]
    simpa using h1
  · rw [hgt]
    simpa using h2
  · rw [hgt]
    exact h3
  · rw [hgt]
    rcases h4 with h4 | ⟨d, b, tris, rest2, hst, _, hover⟩
    · exact Or.inl h4
    · refine Or.inr ⟨d, b, tris, rest2, hst, ?_⟩
      simp only [h2] at hover
      simpa using hover
  · intro m hm
    rw [hgt]
    exact h5 m hm


theorem drainAux_succ {Box Tri Out : Type} (collides : Box → Bool) (transform : Tri → Out)
    (maxReq n : Nat) (ctx : MSGetTrianglesContext Box Tri) (h : ctx.stack.isEmpty = false) :
    drainAux collides transform maxReq (n + 1) ctx
      = ((getTrianglesNext collides transform ctx maxReq).2.1
          ++ (drainAux collides transform maxReq n
              (getTrianglesNext collides transform ctx maxReq).1).1,
        (drainAux collides transform maxReq n
            (getTrianglesNext collides transform ctx maxReq).1).2) := by
  rw [drainAux, h]
  simp only [Bool.false_eq_true, if_false]

theorem ctx_eta {Box Tri : Type} (ctx : MSGetTrianglesContext Box Tri) (h : ctx.stack = []) :
    ctx = ⟨[]⟩ := by
  obtain ⟨st⟩ := ctx
  simp only at h
  rw [h]

theorem drainAux_spec {Box Tri Out : Type} (collides : Box → Bool) (transform : Tri → Out)
    (maxReq : Nat) :
    ∀ (fuel : Nat) (ctx : MSGetTrianglesContext Box Tri),
      stackLeavesAtMost maxReq ctx.stack = true →
      (selStack collides ctx.stack).length < fuel →
      drainAux collides transform maxReq fuel ctx
        = ((selStack collides ctx.stack).map transform, ⟨[]⟩) := by
  intro fuel
  induction fuel with
  | zero =>
    intro ctx _ hlen
    omega
  | succ n ih =>
    intro ctx hlv hlen
    by_cases hemp : ctx.stack = []
    · rw [ctx_eta ctx hemp]
      simp [drainAux, selStack]
    · have hne : ctx.stack.isEmpty = false := by
        cases hs : ctx.stack with
        | nil => exact absurd hs hemp
        | cons e rest => rfl
      rw [drainAux_succ collides transform maxReq n ctx hne]
      obtain ⟨Δ, h1, h2, h3, h4, h5⟩ := getTrianglesNext_call collides transform maxReq ctx hemp
      have hlv' := h5 maxReq hlv
      have hlen3 : Δ.length +
          (selStack collides (getTrianglesNext collides transform ctx maxReq).1.stack).length
          = (selStack collides ctx.stack).length := by
        rw [← h3, List.length_append]
      rcases h4 with hres | ⟨d, b, tris, rest2, hst, hover⟩
      · rw [drainAux_empty collides transform maxReq n _ hres]
        have hΔ : selStack collides ctx.stack = Δ := by
          rw [← h3, hres]
          simp [selStack]
        rw [ctx_eta _ hres, h1, hΔ]
        simp
      · have htl : tris.length ≤ maxReq := by
          rw [hst, stackLeavesAtMost_cons, Bool.and_eq_true] at hlv'
          have := hlv'.1
          rw [MTree.leavesAtMost] at this
          simpa using this
        have hΔpos : 1 ≤ Δ.length := by omega
        have hlen4 :
            (selStack collides (getTrianglesNext collides transform ctx maxReq).1.stack).length
              < n := by omega
        rw [ih _ (h5 maxReq hlv) hlen4, h1]
        rw [← List.map_append, h3]

mutual
theorem leavesAtMost_mono {Box Tri : Type} (m m' : Nat) (hm : m ≤ m') :
    ∀ t : MTree Box Tri, t.leavesAtMost m = true → t.leavesAtMost m' = true
  | .leaf b ts, h => by
    rw [MTree.leavesAtMost] at h ⊢
    simp only [decide_eq_true_eq] at h ⊢
    omega
  | .node cs, h => by
    rw [MTree.leavesAtMost] at h ⊢
    exact leavesAtMostChildren_mono m m' hm cs h
theorem leavesAtMostChildren_mono {Box Tri : Type} (m m' : Nat) (hm : m ≤ m') :
    ∀ cs : List (Box × MTree Box Tri),
      MTree.leavesAtMostChildren m cs = true → MTree.leavesAtMostChildren m' cs = true
  | [], h => h
  | (b, c) :: rest, h => by
    rw [MTree.leavesAtMostChildren, Bool.and_eq_true] at h ⊢
    exact ⟨leavesAtMost_mono m m' hm c h.1, leavesAtMostChildren_mono m m' hm rest h.2⟩
end

/-- C6: with every leaf at most MaxTrianglesPerLeaf triangles and a request of at
least MaxTrianglesPerLeaf per call, draining GetTrianglesNext returns each selected
triangle exactly once and empties the stack (after which every call returns 0); an
exhausted context returns 0 without output; and each single call emits a prefix of
the remaining selected triangles, returning their count, stopping - if it stops
early - at a leaf left unconsumed on the stack whose size would overflow the
request. -/
theorem getTrianglesNext_spec {Box Tri Out : Type} (collides : Box → Bool)
    (transform : Tri → Out) (maxTrianglesRequested maxTrianglesPerLeaf : Nat)
    (tree : MTree Box Tri)
    (hleaf : tree.leavesAtMost maxTrianglesPerLeaf = true)
    (hreq : maxTrianglesPerLeaf ≤ maxTrianglesRequested) :
    (∀ fuel, (tree.selTris collides).length < fuel →
      drainAux collides transform maxTrianglesRequested fuel (getTrianglesStart tree)
        = ((tree.selTris collides).map transform, ⟨[]⟩)) ∧
    (∀ ctx : MSGetTrianglesContext Box Tri, ctx.stack = [] →
      getTrianglesNext collides transform ctx maxTrianglesRequested = (ctx, [], 0)) ∧
    (∀ ctx : MSGetTrianglesContext Box Tri, ctx.stack ≠ [] →
      ∃ Δ : List Tri,
        (getTrianglesNext collides transform ctx maxTrianglesRequested).2.1
          = Δ.map transform ∧
        (getTrianglesNext collides transform ctx maxTrianglesRequested).2.2 = Δ.length ∧
        Δ ++ selStack collides
            (getTrianglesNext collides transform ctx maxTrianglesRequested).1.stack
          = selStack collides ctx.stack ∧
        ((getTrianglesNext collides transform ctx maxTrianglesRequested).1.stack = [] ∨
          ∃ d b tris rest2,
            (getTrianglesNext collides transform ctx maxTrianglesRequested).1.stack
              = (d, MTree.leaf b tris) :: rest2 ∧
            maxTrianglesRequested < Δ.length + tris.length)) := by
  refine ⟨?_, ?_, ?_⟩
  · intro fuel hfuel
    have hsel : selStack collides (getTrianglesStart tree).stack = tree.selTris collides := by
      simp [getTrianglesStart, selStack]
    have hlv : stackLeavesAtMost maxTrianglesRequested (getTrianglesStart tree).stack
        = true := by
      simp only [getTrianglesStart, stackLeavesAtMost, List.all_cons, List.all_nil,
        Bool.and_true]
      exact leavesAtMost_mono maxTrianglesPerLeaf maxTrianglesRequested hreq tree hleaf
    rw [drainAux_spec collides transform maxTrianglesRequested fuel (getTrianglesStart tree)
      hlv (by rw [hsel]; exact hfuel), hsel]
  · intro ctx hc
    have hee : ctx.stack.isEmpty = true := by rw [hc]; rfl
    rw [getTrianglesNext, hee, if_pos rfl]
  · intro ctx hc
    obtain ⟨Δ, h1, h2, h3, h4, _⟩ :=
      getTrianglesNext_call collides transform maxTrianglesRequested ctx hc
    exact ⟨Δ, h1, h2, h3, h4⟩

def gtWitnessTree : MTree Bool Nat :=
  MTree.node [(true, MTree.leaf 0 [1, 2]), (false, MTree.leaf 1 [3]),
    (true, MTree.leaf 2 [4])]

theorem getTrianglesNext_spec_witness :
    gtWitnessTree.leavesAtMost 2 = true ∧ 2 ≤ 2 ∧
    drainAux (fun b : Bool => b) (fun n : Nat => n) 2 4 (getTrianglesStart gtWitnessTree)
      = ([1, 2, 4], ⟨[]⟩) := by
  have hleaf : gtWitnessTree.leavesAtMost 2 = true := by
    simp [gtWitnessTree, MTree.leavesAtMost, MTree.leavesAtMostChildren]
  refine ⟨hleaf, le_refl 2, ?_⟩
  have hsel : gtWitnessTree.selTris (fun b : Bool => b) = [1, 2, 4] := by
    simp [gtWitnessTree, MTree.selTris, MTree.selChildren]
  have h := (getTrianglesNext_spec (fun b : Bool => b) (fun n : Nat => n) 2 2 gtWitnessTree
    hleaf (le_refl 2)).1 4 (by rw [hsel]; simp)
  rw [h, hsel]
  rfl

/-! ### GetMaterial -/

/-- GetMaterial (MeshShape.cpp lines 320-334): an empty material table short-circuits
to the default material before any decoding; otherwise the sub-shape ID is decoded,
the flag word of the addressed triangle is fetched (`sGetFlags`, outside src/, is an
abstract parameter mapping block ID and triangle index to the stored flag byte) and
the material at `flags & FLAGS_MATERIAL_MASK` is returned (the source's unchecked
`mMaterials[...]` is modelled as `getD` with the default material). -/
def getMaterial {Mat : Type} (sDefault : Mat) (materials : List Mat)
    (sGetFlags : Nat → Nat → Nat) (blockIdBits numTriangleBits : Nat)
    (id : SubShapeID) : Mat :=
  if materials.isEmpty then sDefault
  else
    let d := decodeSubShapeID blockIdBits numTriangleBits id
    materials.getD (sGetFlags d.1 d.2.1 &&& FLAGS_MATERIAL_MASK) sDefault

/-- C10: with an empty material table GetMaterial returns the default material for
every sub-shape ID, independently of the decoding widths and of the flag fetch, so a
malformed ID is never decoded in that case; with a non-empty table it returns the
table entry at `flags & FLAGS_MATERIAL_MASK` for the decoded block ID and triangle
index. -/
theorem getMaterial_spec {Mat : Type} (sDefault : Mat) (materials : List Mat)
    (sGetFlags : Nat → Nat → Nat) (blockIdBits numTriangleBits : Nat) (id : SubShapeID) :
    (materials = [] →
      getMaterial sDefault materials sGetFlags blockIdBits numTriangleBits id = sDefault) ∧
    (materials ≠ [] →
      getMaterial sDefault materials sGetFlags blockIdBits numTriangleBits id
        = materials.getD
            (sGetFlags (decodeSubShapeID blockIdBits numTriangleBits id).1
                (decodeSubShapeID blockIdBits numTriangleBits id).2.1
              &&& FLAGS_MATERIAL_MASK)
            sDefault) := by
  constructor
  · intro h
    rw [getMaterial, h]
    rfl
  · intro h
    have he : materials.isEmpty = false := by
      cases hs : materials with
      | nil => exact absurd hs h
      | cons a l => rfl
    rw [getMaterial, he]
    rfl

theorem getMaterial_spec_witness :
    (getMaterial 99 ([] : List Nat) (fun _ _ => 37) 12 2 ⟨(3 <<< 12) ||| 7, 14⟩ = 99) ∧
    ([10, 20, 30, 40, 50, 60] ≠ ([] : List Nat)) ∧
    (getMaterial 99 [10, 20, 30, 40, 50, 60] (fun b t => b - t) 12 2
      ⟨(3 <<< 12) ||| 7, 14⟩ = 50) := by
  refine ⟨?_, by decide, ?_⟩
  · exact (getMaterial_spec 99 [] (fun _ _ => 37) 12 2 ⟨(3 <<< 12) ||| 7, 14⟩).1 rfl
  · have h := (getMaterial_spec 99 [10, 20, 30, 40, 50, 60] (fun b t => b - t) 12 2
      ⟨(3 <<< 12) ||| 7, 14⟩).2 (by decide)
    rw [h]
    rfl

end MeshShapeProof
